import Mathlib

set_option maxHeartbeats 1000000

/-!
Shallow embedding of pachyderm's shard-role coordinator:
`src/pfs/route/discovery_addresser.go` and `src/pfs/role/roler.go`.

Modelling conventions, used throughout:
* Go maps are `Option`-valued functions (`String → Option ServerRole`,
  `Nat → Option String`) or association lists where the code iterates them.
* Go map-sets (`map[uint64]bool`, `map[string]bool`) are `List`s; every
  insertion in the source is guarded by a membership test (`hasShard`,
  an explicit lookup), so the lists never acquire duplicates and their
  `length` agrees with Go's `len`.
* Go map iteration order is unspecified; it is modelled by an explicit
  list order (`servers`, the order of the decoded snapshot).  No theorem
  below depends on the particular order.
* Fallible store operations are pre-decoded: watch callbacks receive the
  decoded snapshot, and decoding errors (which abort the Go callback
  early) are out of the modelled fragment.
-/

/-- proto.ServerRole: one server's role assignment at one version. -/
structure ServerRole where
  id : String
  version : Int
  masters : List Nat
  replicas : List Nat
deriving DecidableEq

/-- proto.ServerState: one server's heartbeat entry. -/
structure ServerState where
  id : String
  address : String
  version : Int
  shards : List Nat
deriving DecidableEq

/-- proto.ShardAddresses: the master address and replica address set of one
shard inside an Addresses snapshot. -/
structure ShardAddresses where
  master : String
  replicas : List String
deriving DecidableEq

/-- proto.Addresses: one immutable versioned snapshot, `shard → addresses`
(the Go map is an association list here so the resolver can iterate it). -/
structure Addresses where
  version : Int
  addresses : List (Nat × ShardAddresses)
deriving DecidableEq

/-- hasShard (discovery_addresser.go): the server already holds the shard as
master or replica.  A read of a missing Go map key yields `false`, hence
plain membership. -/
def hasShard (serverRole : ServerRole) (shard : Nat) : Bool :=
  decide (shard ∈ serverRole.masters) || decide (shard ∈ serverRole.replicas)

/-- removeReplica (discovery_addresser.go): drop `id` from the replica list
of `shard`, keeping the order of the remaining ids. -/
def removeReplica (replicas : Nat → List String) (shard : Nat) (id : String) :
    Nat → List String :=
  fun s =>
    if s = shard then (replicas shard).filter (fun replicaID => id != replicaID)
    else replicas s

/-- The three locations assignMaster mutates through pointers: the role map,
the shard→master map, and the master remainder budget. -/
structure MasterAssign where
  serverRoles : String → Option ServerRole
  masters : Nat → Option String
  masterRolesRemainder : Nat

/-- The three locations assignReplica mutates: the role map, the
shard→replica-list map, and the replica remainder budget. -/
structure ReplicaAssign where
  serverRoles : String → Option ServerRole
  replicas : Nat → List String
  replicaRolesRemainder : Nat

/-- assignMaster (discovery_addresser.go:472).  `none` models the `false`
return (no mutation happened); `some` carries the updated state. -/
def assignMaster (serverRoles : String → Option ServerRole)
    (masters : Nat → Option String) (id : String) (shard : Nat)
    (masterRolesPerServer masterRolesRemainder : Nat) : Option MasterAssign :=
  match serverRoles id with
  | none => none
  | some serverRole =>
    if masterRolesPerServer < serverRole.masters.length then none
    else if serverRole.masters.length = masterRolesPerServer ∧ masterRolesRemainder = 0 then
      none
    else if hasShard serverRole shard then none
    else
      some
        { serverRoles :=
            Function.update serverRoles id
              (some { serverRole with masters := serverRole.masters ++ [shard] })
          masters := fun s => if s = shard then some id else masters s
          masterRolesRemainder :=
            if serverRole.masters.length = masterRolesPerServer ∧ 0 < masterRolesRemainder
            then masterRolesRemainder - 1 else masterRolesRemainder }

/-- assignReplica (discovery_addresser.go:502).  The `masters` parameter is
carried but never read, exactly as in the source. -/
def assignReplica (serverRoles : String → Option ServerRole)
    (masters : Nat → Option String) (replicas : Nat → List String)
    (id : String) (shard : Nat)
    (replicaRolesPerServer replicaRolesRemainder : Nat) : Option ReplicaAssign :=
  match serverRoles id with
  | none => none
  | some serverRole =>
    if replicaRolesPerServer < serverRole.replicas.length then none
    else if serverRole.replicas.length = replicaRolesPerServer ∧ replicaRolesRemainder = 0 then
      none
    else if hasShard serverRole shard then none
    else
      some
        { serverRoles :=
            Function.update serverRoles id
              (some { serverRole with replicas := serverRole.replicas ++ [shard] })
          replicas := fun s => if s = shard then replicas shard ++ [id] else replicas s
          replicaRolesRemainder :=
            if serverRole.replicas.length = replicaRolesPerServer ∧ 0 < replicaRolesRemainder
            then replicaRolesRemainder - 1 else replicaRolesRemainder }

/-- math.MaxUint64, the replica budget swapReplica hands to the server that
is being compensated for a stolen shard. -/
def maxUint64 : Nat := 2 ^ 64 - 1

/-- The inner double loop of swapReplica: find the first other server
(`swapID`) holding some replica shard (`swapShard`) such that the exchange
violates neither server's `hasShard` check.  The Go source iterates the
`serverRoles` map and the `Replicas` map-set in unspecified order; here both
follow the explicit `servers` and replica-list order. -/
def swapSearch (serverRoles : String → Option ServerRole) (serverRole : ServerRole)
    (id : String) (shard : Nat) : List String → Option (String × ServerRole × Nat)
  | [] => none
  | swapID :: rest =>
    if swapID = id then swapSearch serverRoles serverRole id shard rest
    else
      match serverRoles swapID with
      | none => swapSearch serverRoles serverRole id shard rest
      | some swapServerRole =>
        match swapServerRole.replicas.find? (fun swapShard =>
            !hasShard serverRole swapShard && !hasShard swapServerRole shard) with
        | some swapShard => some (swapID, swapServerRole, swapShard)
        | none => swapSearch serverRoles serverRole id shard rest

/-- swapReplica (discovery_addresser.go:533).  Both inner assignReplica calls
receive a zero remainder, and the compensated server gets math.MaxUint64 as
its per-server budget; their boolean results are discarded, as in the
source.  The remainder of the outer loop is untouched, so the result is only
the role map and the replica map. -/
def swapReplica (serverRoles : String → Option ServerRole)
    (masters : Nat → Option String) (replicas : Nat → List String)
    (servers : List String) (id : String) (shard : Nat)
    (replicaRolesPerServer : Nat) :
    Option ((String → Option ServerRole) × (Nat → List String)) :=
  match serverRoles id with
  | none => none
  | some serverRole =>
    if replicaRolesPerServer ≤ serverRole.replicas.length then none
    else
      match swapSearch serverRoles serverRole id shard servers with
      | none => none
      | some (swapID, swapServerRole, swapShard) =>
        let swapServerRole' :=
          { swapServerRole with replicas := swapServerRole.replicas.erase swapShard }
        let serverRoles1 := Function.update serverRoles swapID (some swapServerRole')
        let replicas1 := removeReplica replicas swapShard swapID
        let step2 :=
          match assignReplica serverRoles1 masters replicas1 swapID shard maxUint64 0 with
          | some r => (r.serverRoles, r.replicas)
          | none => (serverRoles1, replicas1)
        let step3 :=
          match assignReplica step2.1 masters step2.2 id swapShard replicaRolesPerServer 0 with
          | some r => (r.serverRoles, r.replicas)
          | none => step2
        some step3

/-- The candidate order of the Master (and Replica) placement loop:
previous master, previous replicas, servers reporting the shard mounted,
then every server. -/
def candidateOrder (oldMasters : Nat → Option String)
    (oldReplicas shardLocations : Nat → List String) (servers : List String)
    (shard : Nat) : List String :=
  (oldMasters shard).toList ++ oldReplicas shard ++ shardLocations shard ++ servers

/-- First candidate that assignMaster admits, with the resulting state. -/
def tryAssignMaster (masters : Nat → Option String) (shard : Nat)
    (masterRolesPerServer : Nat) :
    (String → Option ServerRole) → Nat → List String → Option MasterAssign
  | _, _, [] => none
  | serverRoles, rem, id :: rest =>
    match assignMaster serverRoles masters id shard masterRolesPerServer rem with
    | some st => some st
    | none => tryAssignMaster masters shard masterRolesPerServer serverRoles rem rest

/-- The `Master:` labelled loop of AssignRoles: place a master for every
shard in order, abandoning the snapshot (`none`) when some shard exhausts
all candidates. -/
def assignMasters (oldMasters : Nat → Option String)
    (oldReplicas shardLocations : Nat → List String) (servers : List String)
    (masterRolesPerServer : Nat) : List Nat → MasterAssign → Option MasterAssign
  | [], st => some st
  | shard :: rest, st =>
    match tryAssignMaster st.masters shard masterRolesPerServer st.serverRoles
        st.masterRolesRemainder
        (candidateOrder oldMasters oldReplicas shardLocations servers shard) with
    | none => none
    | some st' => assignMasters oldMasters oldReplicas shardLocations servers
        masterRolesPerServer rest st'

/-- First candidate that assignReplica admits. -/
def tryAssignReplica (masters : Nat → Option String) (shard : Nat)
    (replicaRolesPerServer : Nat) :
    (String → Option ServerRole) → (Nat → List String) → Nat → List String →
    Option ReplicaAssign
  | _, _, _, [] => none
  | serverRoles, replicas, rem, id :: rest =>
    match assignReplica serverRoles masters replicas id shard replicaRolesPerServer rem with
    | some st => some st
    | none => tryAssignReplica masters shard replicaRolesPerServer serverRoles replicas rem rest

/-- The final fallback pass of the `Replica:` loop: try swapReplica with
every server in turn, first success wins.  The outer remainder budget is not
consulted nor changed by swapReplica. -/
def trySwapReplica (masters : Nat → Option String) (servers : List String)
    (shard : Nat) (replicaRolesPerServer : Nat)
    (serverRoles : String → Option ServerRole) (replicas : Nat → List String) :
    List String → Option ((String → Option ServerRole) × (Nat → List String))
  | [] => none
  | id :: rest =>
    match swapReplica serverRoles masters replicas servers id shard
        replicaRolesPerServer with
    | some st => some st
    | none => trySwapReplica masters servers shard replicaRolesPerServer
        serverRoles replicas rest

/-- The `Replica:` labelled loop body for one shard: four candidate passes
via assignReplica, then the swapReplica pass over every server. -/
def placeReplica (oldMasters : Nat → Option String)
    (oldReplicas shardLocations : Nat → List String) (servers : List String)
    (masters : Nat → Option String) (replicaRolesPerServer : Nat) (shard : Nat)
    (st : ReplicaAssign) : Option ReplicaAssign :=
  match tryAssignReplica masters shard replicaRolesPerServer st.serverRoles st.replicas
      st.replicaRolesRemainder
      (candidateOrder oldMasters oldReplicas shardLocations servers shard) with
  | some st' => some st'
  | none =>
    match trySwapReplica masters servers shard replicaRolesPerServer
        st.serverRoles st.replicas servers with
    | some (serverRoles', replicas') =>
        some { serverRoles := serverRoles', replicas := replicas',
               replicaRolesRemainder := st.replicaRolesRemainder }
    | none => none

/-- One pass of the `Replica:` loop over every shard. -/
def placeReplicas (oldMasters : Nat → Option String)
    (oldReplicas shardLocations : Nat → List String) (servers : List String)
    (masters : Nat → Option String) (replicaRolesPerServer : Nat) :
    List Nat → ReplicaAssign → Option ReplicaAssign
  | [], st => some st
  | shard :: rest, st =>
    match placeReplica oldMasters oldReplicas shardLocations servers masters
        replicaRolesPerServer shard st with
    | none => none
    | some st' => placeReplicas oldMasters oldReplicas shardLocations servers masters
        replicaRolesPerServer rest st'

/-- The outer `for replica := 0 .. NumReplicas-1` loop: NumReplicas passes of
the shard loop (the replica index itself is never read in the body). -/
def placeReplicaRounds (oldMasters : Nat → Option String)
    (oldReplicas shardLocations : Nat → List String) (servers : List String)
    (masters : Nat → Option String) (replicaRolesPerServer : Nat)
    (shardList : List Nat) : Nat → ReplicaAssign → Option ReplicaAssign
  | 0, st => some st
  | numReplicas + 1, st =>
    match placeReplicas oldMasters oldReplicas shardLocations servers masters
        replicaRolesPerServer shardList st with
    | none => none
    | some st' => placeReplicaRounds oldMasters oldReplicas shardLocations servers
        masters replicaRolesPerServer shardList numReplicas st'

/-- The placement part of the AssignRoles callback: per-server budgets, the
fresh empty role map, the master loop, then the replica loops.  `none`
models the 'abandon this snapshot' early returns. -/
def runAssign (numShards numReplicas : Nat) (servers : List String) (version : Int)
    (oldMasters : Nat → Option String)
    (oldReplicas shardLocations : Nat → List String) :
    Option ((String → Option ServerRole) × (Nat → Option String) × (Nat → List String)) :=
  let masterRolesPerServer := numShards / servers.length
  let masterRolesRemainder := numShards % servers.length
  let replicaRolesPerServer := numShards * numReplicas / servers.length
  let replicaRolesRemainder := numShards * numReplicas % servers.length
  let serverRoles0 : String → Option ServerRole := fun id =>
    if id ∈ servers then
      some { id := id, version := version, masters := [], replicas := [] }
    else none
  match assignMasters oldMasters oldReplicas shardLocations servers
      masterRolesPerServer (List.range numShards)
      { serverRoles := serverRoles0, masters := fun _ => none,
        masterRolesRemainder := masterRolesRemainder } with
  | none => none
  | some mst =>
    match placeReplicaRounds oldMasters oldReplicas shardLocations servers
        mst.masters replicaRolesPerServer (List.range numShards) numReplicas
        { serverRoles := mst.serverRoles, replicas := fun _ => [],
          replicaRolesRemainder := replicaRolesRemainder } with
    | none => none
    | some rst => some (rst.serverRoles, mst.masters, rst.replicas)

/-- math.MaxInt64, the sentinel the minimum-version folds start from. -/
def maxInt64 : Int := 2 ^ 63 - 1

/-- The shard→addresses entry the publish step builds for one shard, folding
every server's role into the initially empty entry.  (The source iterates
roles outer and shards inner; per shard the effect is the same fold.) -/
def shardAddressesFor (servers : List String)
    (serverRoles : String → Option ServerRole) (addressOf : String → String)
    (shard : Nat) : ShardAddresses :=
  servers.foldl (fun sa id =>
    match serverRoles id with
    | none => sa
    | some serverRole =>
      let sa := if shard ∈ serverRole.masters then { sa with master := addressOf id } else sa
      if shard ∈ serverRole.replicas then
        { sa with replicas :=
            if addressOf id ∈ sa.replicas then sa.replicas
            else sa.replicas ++ [addressOf id] }
      else sa)
    { master := "", replicas := [] }

/-- The Addresses snapshot the publish step writes. -/
def buildAddresses (numShards : Nat) (version : Int) (servers : List String)
    (serverRoles : String → Option ServerRole) (addressOf : String → String) :
    Addresses :=
  { version := version,
    addresses := (List.range numShards).map (fun shard =>
      (shard, shardAddressesFor servers serverRoles addressOf shard)) }

/-- sameServers (discovery_addresser.go:727), on id sets. -/
def sameServers (oldServerIds newServerIds : List String) : Bool :=
  oldServerIds.length == newServerIds.length &&
    oldServerIds.all (fun id => newServerIds.contains id)

/-- The assigner's in-memory state across watch callbacks: the version
counter and the memory of the previous published assignment. -/
structure AssignerState where
  version : Int
  oldServerStates : List ServerState
  oldMasters : Nat → Option String
  oldReplicas : Nat → List String
  oldMinVersion : Int

/-- Everything one AssignRoles watch callback does to the outside world plus
its state afterwards: the role keys it deletes, the ServerRole entries it
writes, the Addresses snapshot it writes (none when it publishes nothing). -/
structure CallbackOut where
  deletes : List String
  roleWrites : List (String × ServerRole)
  addresses : Option Addresses
  newState : AssignerState

/-- The AssignRoles watch callback (discovery_addresser.go:201), with the
decoded snapshot `newStates` as input and the serverRole directory contents
`storeRoles` (key and decoded version) supplied for the GC step. -/
def assignRolesCallback (numShards numReplicas : Nat) (st : AssignerState)
    (newStates : List ServerState) (storeRoles : List (String × Int)) :
    CallbackOut :=
  if newStates.isEmpty then { deletes := [], roleWrites := [], addresses := none, newState := st }
  else
    let servers := (newStates.map (fun s => s.id)).dedup
    let shardLocations : Nat → List String := fun shard =>
      (newStates.filter (fun s => decide (shard ∈ s.shards))).map (fun s => s.id)
    let minVersion := newStates.foldl (fun m s => if s.version < m then s.version else m) maxInt64
    let gc :=
      if st.oldMinVersion < minVersion then
        (minVersion, (storeRoles.filter (fun p => decide (p.2 < minVersion))).map (fun p => p.1))
      else (st.oldMinVersion, [])
    let st1 := { st with oldMinVersion := gc.1 }
    if sameServers ((st.oldServerStates.map (fun s => s.id)).dedup) servers then
      { deletes := gc.2, roleWrites := [], addresses := none, newState := st1 }
    else
      match runAssign numShards numReplicas servers st.version st.oldMasters
          st.oldReplicas shardLocations with
      | none => { deletes := gc.2, roleWrites := [], addresses := none, newState := st1 }
      | some (serverRoles, masters, replicas) =>
        let roleWrites := servers.filterMap (fun id =>
          (serverRoles id).map (fun serverRole => (id, serverRole)))
        let addressOf : String → String := fun id =>
          ((newStates.find? (fun s => s.id == id)).map (fun s => s.address)).getD ""
        { deletes := gc.2,
          roleWrites := roleWrites,
          addresses := some (buildAddresses numShards st.version servers serverRoles addressOf),
          newState :=
            { version := st.version + 1, oldServerStates := newStates,
              oldMasters := masters, oldReplicas := replicas, oldMinVersion := gc.1 } }

/-- Version (discovery_addresser.go:366): the minimum version over all
ServerState entries, starting from math.MaxInt64 (store and decode errors,
which Go propagates, are outside the modelled fragment). -/
def Version (serverStates : List ServerState) : Int :=
  serverStates.foldl (fun minVersion serverState =>
    if serverState.version < minVersion then serverState.version else minVersion) maxInt64

/-- getAddresses (discovery_addresser.go:440).  The extra `Bool` in the
result records whether the discovery store's Get was called, and the last
component is the cache as it stands after the call — the source never
inserts into `a.addresses`, which this definition makes visible.  When the
version is absent the source builds `fmt.Errorf("version %d not found", version)`
but discards it and decodes the zero-value empty string. -/
def getAddresses (cache : Int → Option Addresses) (store : Int → Option String)
    (decode : String → Except String Addresses) (version : Int) :
    Except String Addresses × Bool × (Int → Option Addresses) :=
  match cache version with
  | some addresses => (Except.ok addresses, false, cache)
  | none =>
    let encodedAddresses := (store version).getD ""
    (decode encodedAddresses, true, cache)

/-- GetMasterAddress (discovery_addresser.go:36): a missing shard in a known
version yields `("", false)` with a nil error; only getAddresses failures
are errors. -/
def GetMasterAddress (cache : Int → Option Addresses) (store : Int → Option String)
    (decode : String → Except String Addresses) (shard : Nat) (version : Int) :
    Except String (String × Bool) × Bool × (Int → Option Addresses) :=
  match getAddresses cache store decode version with
  | (Except.error e, hit, cache') => (Except.error e, hit, cache')
  | (Except.ok addresses, hit, cache') =>
    match addresses.addresses.lookup shard with
    | none => (Except.ok ("", false), hit, cache')
    | some shardAddresses => (Except.ok (shardAddresses.master, true), hit, cache')

/-- GetReplicaAddresses (discovery_addresser.go:51): a missing shard in a
known version is the error `shard %d not found`. -/
def GetReplicaAddresses (cache : Int → Option Addresses) (store : Int → Option String)
    (decode : String → Except String Addresses) (shard : Nat) (version : Int) :
    Except String (List String) × Bool × (Int → Option Addresses) :=
  match getAddresses cache store decode version with
  | (Except.error e, hit, cache') => (Except.error e, hit, cache')
  | (Except.ok addresses, hit, cache') =>
    match addresses.addresses.lookup shard with
    | none => (Except.error ("shard " ++ toString shard ++ " not found"), hit, cache')
    | some shardAddresses => (Except.ok shardAddresses.replicas, hit, cache')

/-- GetShardToMasterAddress (discovery_addresser.go:66). -/
def GetShardToMasterAddress (cache : Int → Option Addresses)
    (store : Int → Option String) (decode : String → Except String Addresses)
    (version : Int) :
    Except String (List (Nat × String)) × Bool × (Int → Option Addresses) :=
  match getAddresses cache store decode version with
  | (Except.error e, hit, cache') => (Except.error e, hit, cache')
  | (Except.ok addresses, hit, cache') =>
    (Except.ok (addresses.addresses.map (fun p => (p.1, p.2.master))), hit, cache')

/-- GetShardToReplicaAddresses (discovery_addresser.go:81). -/
def GetShardToReplicaAddresses (cache : Int → Option Addresses)
    (store : Int → Option String) (decode : String → Except String Addresses)
    (version : Int) :
    Except String (List (Nat × List String)) × Bool × (Int → Option Addresses) :=
  match getAddresses cache store decode version with
  | (Except.error e, hit, cache') => (Except.error e, hit, cache')
  | (Except.ok addresses, hit, cache') =>
    (Except.ok (addresses.addresses.map (fun p => (p.1, p.2.replicas))), hit, cache')

/-- shards (discovery_addresser.go:707): every shard of a role, masters then
replicas (the Go map iteration order within each set is unspecified). -/
def shards (serverRole : ServerRole) : List Nat :=
  serverRole.masters ++ serverRole.replicas

/-- containsShard (discovery_addresser.go:718): some live role version still
claims the shard. -/
def containsShard (roles : List (Int × ServerRole)) (shard : Nat) : Bool :=
  roles.any (fun p => decide (shard ∈ p.2.masters) || decide (shard ∈ p.2.replicas))

/-- One sorted insertion, modelling sort.Sort on the version slice. -/
def insertVersion (v : Int) : List Int → List Int
  | [] => [v]
  | x :: xs => if v ≤ x then v :: x :: xs else x :: insertVersion v xs

/-- The ascending version order the fillRoles callback processes. -/
def sortVersions (versions : List Int) : List Int :=
  versions.foldr insertVersion []

/-- The 'bring the server up to date' loop of the fillRoles callback: walk
the sorted versions; for each version not yet applied, AddShard every shard
of it that no already-applied version contains, then record it as applied.
Result: the AddShard calls grouped per version, in processing order, and the
updated applied-roles map. -/
def applyVersions (roles : List (Int × ServerRole)) :
    List Int → List (Int × ServerRole) →
    List (Int × List Nat) × List (Int × ServerRole)
  | [], oldRoles => ([], oldRoles)
  | version :: rest, oldRoles =>
    if (oldRoles.lookup version).isSome then applyVersions roles rest oldRoles
    else
      match roles.lookup version with
      | none => applyVersions roles rest oldRoles
      | some serverRole =>
        let newShards := (shards serverRole).filter (fun shard => !containsShard oldRoles shard)
        let next := applyVersions roles rest (oldRoles ++ [(version, serverRole)])
        ((version, newShards) :: next.1, next.2)

/-- The removal loop of the fillRoles callback: for every applied version no
longer in the snapshot, RemoveShard every shard of it that no live version
contains. -/
def collectRemoves (roles : List (Int × ServerRole)) :
    List (Int × ServerRole) → List Nat
  | [] => []
  | (version, serverRole) :: rest =>
    if (roles.lookup version).isSome then collectRemoves roles rest
    else ((shards serverRole).filter (fun shard => !containsShard roles shard)) ++
      collectRemoves roles rest

/-- One invocation of the fillRoles watch callback (discovery_addresser.go:629)
on the decoded snapshot: AddShard calls per version in ascending order, then
the RemoveShard calls, then the new applied-roles memory. -/
def fillRolesCallback (oldRoles : List (Int × ServerRole))
    (snapshotRoles : List ServerRole) :
    List (Int × List Nat) × List Nat × List (Int × ServerRole) :=
  let roles : List (Int × ServerRole) := snapshotRoles.map (fun r => (r.version, r))
  let versions := sortVersions (snapshotRoles.map (fun r => r.version))
  let applied := applyVersions roles versions oldRoles
  let removes := collectRemoves roles applied.2
  (applied.1, removes, roles)

/-- What one iteration of the Roler's Run loop (roler.go:20) decides to do
with the fetched shard→masterAddress map. -/
inductive RolerDecision where
  | yield : RolerDecision
  | claimOpen : Nat → RolerDecision
  | steal : Nat → String → RolerDecision
deriving DecidableEq

/-- masterCounts (roler.go:93): how many shards each address masters. -/
def masterCounts (shardToMasterAddress : List (Nat × String)) : String → Nat :=
  fun address => (shardToMasterAddress.filter (fun p => p.2 == address)).length

/-- The addresses the counts map holds (Go iterates the map; here, first
occurrence order). -/
def countAddresses (shardToMasterAddress : List (Nat × String)) : List String :=
  (shardToMasterAddress.map (fun p => p.2)).dedup

/-- math.MaxInt64 as the Nat start value of minCount's fold. -/
def maxInt64Nat : Nat := 2 ^ 63 - 1

/-- minCount (roler.go:101): the address with the fewest masters, starting
from ("", math.MaxInt64). -/
def minCount (addresses : List String) (counts : String → Nat) : String × Nat :=
  addresses.foldl (fun acc address =>
    if counts address < acc.2 then (address, counts address) else acc)
    ("", maxInt64Nat)

/-- maxCount (roler.go:113): the address with the most masters, starting
from ("", 0). -/
def maxCount (addresses : List String) (counts : String → Nat) : String × Nat :=
  addresses.foldl (fun acc address =>
    if acc.2 < counts address then (address, counts address) else acc)
    ("", 0)

/-- openShard (roler.go:68): the first shard with no master. -/
def openShard (numShards : Nat) (shardToMasterAddress : List (Nat × String)) :
    Option Nat :=
  (List.range numShards).find? (fun i => (shardToMasterAddress.lookup i).isNone)

/-- randomShard (roler.go:77): some shard mastered by `address` (the Go code
leans on random map order; the choice does not affect correctness). -/
def randomShard (address : String) (shardToMasterAddress : List (Nat × String)) :
    Option Nat :=
  (shardToMasterAddress.find? (fun p => p.2 == address)).map (fun p => p.1)

/-- One iteration of the Roler's Run loop (roler.go:20), as the decision it
reaches: yield (continue), claim an open shard, or steal from the server
with the maximum count.  `server.Master` is called exactly on `claimOpen`
and `steal`. -/
def rolerRunStep (localAddress : String) (numShards : Nat)
    (shardToMasterAddress : List (Nat × String)) : RolerDecision :=
  let counts := masterCounts shardToMasterAddress
  let addresses := countAddresses shardToMasterAddress
  let min := (minCount addresses counts).2
  if min < counts localAddress then RolerDecision.yield
  else
    match openShard numShards shardToMasterAddress with
    | some shard => RolerDecision.claimOpen shard
    | none =>
      let maxPair := maxCount addresses counts
      if ((maxPair.2 : Int) - 1) < (counts localAddress : Int) + 1 then RolerDecision.yield
      else
        match randomShard maxPair.1 shardToMasterAddress with
        | some shard => RolerDecision.steal shard maxPair.1
        | none => RolerDecision.yield

/-- The master shards a role map records for a server (`[]` when the server
is unknown); its length is Go's `len(serverRole.Masters)`. -/
def mmap (serverRoles : String → Option ServerRole) (id : String) : List Nat :=
  match serverRoles id with
  | some serverRole => serverRole.masters
  | none => []

/-- The replica shards a role map records for a server. -/
def rmap (serverRoles : String → Option ServerRole) (id : String) : List Nat :=
  match serverRoles id with
  | some serverRole => serverRole.replicas
  | none => []

/-- Sum of a per-server count over a server list. -/
def csum (f : String → Nat) : List String → Nat
  | [] => 0
  | id :: rest => f id + csum f rest

/-- How many servers of the list exceed the per-server budget. -/
def overCount (f : String → Nat) (per : Nat) : List String → Nat
  | [] => 0
  | id :: rest => (if per < f id then 1 else 0) + overCount f per rest

/-- The role map's domain is exactly the server set (Go: `newRoles` holds an
entry per decoded server id). -/
def RolesDom (servers : List String) (serverRoles : String → Option ServerRole) : Prop :=
  ∀ id, (serverRoles id).isSome = true ↔ id ∈ servers

/-- No server of the role map is master and replica of the same shard. -/
def RolesDisj (serverRoles : String → Option ServerRole) : Prop :=
  ∀ id serverRole, serverRoles id = some serverRole →
    ∀ shard, ¬(shard ∈ serverRole.masters ∧ shard ∈ serverRole.replicas)

/-- The loop invariant of both placement phases: every server is within one
of the budget, the servers over budget (plus the remainder still unspent)
fit in the initial remainder, and the counts sum to the number of roles
placed so far. -/
structure PlaceInv (servers : List String) (per remInit : Nat)
    (f : String → Nat) (rem assigned : Nat) : Prop where
  bound : ∀ id ∈ servers, f id ≤ per + 1
  over : overCount f per servers + rem ≤ remInit
  total : csum f servers = assigned

/-! ## Resolver properties -/

lemma getAddresses_cache_unchanged (cache : Int → Option Addresses)
    (store : Int → Option String) (decode : String → Except String Addresses)
    (version : Int) : (getAddresses cache store decode version).2.2 = cache := by
  unfold getAddresses
  cases cache version <;> rfl

lemma GetMasterAddress_cache_unchanged (cache : Int → Option Addresses)
    (store : Int → Option String) (decode : String → Except String Addresses)
    (shard : Nat) (version : Int) :
    (GetMasterAddress cache store decode shard version).2.2 = cache := by
  cases hc : cache version with
  | none =>
    cases hd : decode ((store version).getD "") with
    | error e => simp [GetMasterAddress, getAddresses, hc, hd]
    | ok addresses =>
      cases hl : addresses.addresses.lookup shard <;>
        simp [GetMasterAddress, getAddresses, hc, hd, hl]
  | some addresses =>
    cases hl : addresses.addresses.lookup shard <;>
      simp [GetMasterAddress, getAddresses, hc, hl]

lemma GetMasterAddress_hit_store (cache : Int → Option Addresses)
    (store : Int → Option String) (decode : String → Except String Addresses)
    (shard : Nat) (version : Int) (h : cache version = none) :
    (GetMasterAddress cache store decode shard version).2.1 = true := by
  cases hd : decode ((store version).getD "") with
  | error e => simp [GetMasterAddress, getAddresses, h, hd]
  | ok addresses =>
    cases hl : addresses.addresses.lookup shard <;>
      simp [GetMasterAddress, getAddresses, h, hd, hl]

/-- C5: `getAddresses` builds `fmt.Errorf("version %d not found", version)`
for a version that is in neither the cache nor the store, but discards it:
the call proceeds to decode the zero-value empty string, so the result is
whatever the decoder makes of `""` — never the missing-version error the
spec requires every resolver operation to surface. -/
theorem getAddresses_missing_version_decodes_zero_value :
    ∀ (decode : String → Except String Addresses) (version : Int),
      (getAddresses (fun _ => none) (fun _ => none) decode version).1 = decode "" :=
  fun _ _ => rfl

/-- C6: the resolver never populates its version cache: every call leaves
the cache exactly as it was, so a second query for the same
`(shard, version)` after a successful first one calls the discovery store's
Get again, contradicting the spec's S6 scenario.  Shown for a store that
holds version 0 and an initially empty cache. -/
theorem GetMasterAddress_second_query_hits_store :
    ∀ (decode : String → Except String Addresses),
      (GetMasterAddress (fun _ => none)
          (fun v => if v = 0 then some "encoded" else none) decode 0 0).2.1 = true ∧
      (GetMasterAddress
          ((GetMasterAddress (fun _ => none)
            (fun v => if v = 0 then some "encoded" else none) decode 0 0).2.2)
          (fun v => if v = 0 then some "encoded" else none) decode 0 0).2.1 = true ∧
      (∀ (cache : Int → Option Addresses) (store : Int → Option String)
          (shard : Nat) (version : Int),
        (GetMasterAddress cache store decode shard version).2.2 = cache) := by
  intro decode
  refine ⟨GetMasterAddress_hit_store _ _ _ _ _ rfl, ?_, fun cache store shard version =>
    GetMasterAddress_cache_unchanged cache store decode shard version⟩
  rw [GetMasterAddress_cache_unchanged]
  exact GetMasterAddress_hit_store _ _ _ _ _ rfl

/-- C7 counterexample: with version 0 cached (an Addresses snapshot whose
map is empty), GetMasterAddress for the absent shard 5 returns
`("", false)` with a nil error — not an error as the claim states. -/
theorem GetMasterAddress_missing_shard_nil_error :
    (GetMasterAddress
      (fun v => if v = 0 then some { version := 0, addresses := [] } else none)
      (fun _ => none) (fun _ => Except.error "unused") 5 0).1 =
      Except.ok ("", false) := rfl

/-- C7 amended: for a version present in the cache whose Addresses map lacks
the shard, GetMasterAddress signals absence as `("", false)` with a nil
error, while GetReplicaAddresses returns the `shard %d not found` error. -/
theorem resolver_missing_shard_behaviour (cache : Int → Option Addresses)
    (store : Int → Option String) (decode : String → Except String Addresses)
    (shard : Nat) (version : Int) (addrs : Addresses)
    (hc : cache version = some addrs)
    (hs : addrs.addresses.lookup shard = none) :
    (GetMasterAddress cache store decode shard version).1 = Except.ok ("", false) ∧
    (GetReplicaAddresses cache store decode shard version).1 =
      Except.error ("shard " ++ toString shard ++ " not found") := by
  constructor
  · simp [GetMasterAddress, getAddresses, hc, hs]
  · simp [GetReplicaAddresses, getAddresses, hc, hs]

/-- C7 witness: the amended behaviour at a concrete cache and shard. -/
theorem resolver_missing_shard_behaviour_witness :
    (GetReplicaAddresses
      (fun v => if v = 0 then some { version := 0, addresses := [(1, { master := "m", replicas := [] })] } else none)
      (fun _ => none) (fun _ => Except.error "unused") 5 0).1 =
      Except.error ("shard " ++ toString 5 ++ " not found") :=
  (resolver_missing_shard_behaviour
    (fun v => if v = 0 then some { version := 0, addresses := [(1, { master := "m", replicas := [] })] } else none)
    (fun _ => none) (fun _ => Except.error "unused") 5 0
    { version := 0, addresses := [(1, { master := "m", replicas := [] })] }
    rfl rfl).2

/-! ## Roler properties -/

/-- C8: in a Run-loop iteration with no open shard, the Roler yields
whenever the local count exceeds the global minimum, yields whenever
stealing would make it the new maximum (`localCount + 1 > maxCount - 1`,
over the integers as in the source), and whenever it does steal, the guard
held, the local count was at most the minimum, and the victim is the
address maxCount selected. -/
theorem rolerRunStep_steal_guard (localAddress : String) (numShards : Nat)
    (shardToMasterAddress : List (Nat × String))
    (hopen : openShard numShards shardToMasterAddress = none) :
    ((minCount (countAddresses shardToMasterAddress) (masterCounts shardToMasterAddress)).2 <
        masterCounts shardToMasterAddress localAddress →
      rolerRunStep localAddress numShards shardToMasterAddress = RolerDecision.yield) ∧
    (((maxCount (countAddresses shardToMasterAddress) (masterCounts shardToMasterAddress)).2 : Int) - 1 <
        (masterCounts shardToMasterAddress localAddress : Int) + 1 →
      rolerRunStep localAddress numShards shardToMasterAddress = RolerDecision.yield) ∧
    (∀ shard address,
      rolerRunStep localAddress numShards shardToMasterAddress =
        RolerDecision.steal shard address →
      (masterCounts shardToMasterAddress localAddress : Int) + 1 ≤
        ((maxCount (countAddresses shardToMasterAddress) (masterCounts shardToMasterAddress)).2 : Int) - 1 ∧
      masterCounts shardToMasterAddress localAddress ≤
        (minCount (countAddresses shardToMasterAddress) (masterCounts shardToMasterAddress)).2 ∧
      address =
        (maxCount (countAddresses shardToMasterAddress) (masterCounts shardToMasterAddress)).1) := by
  refine ⟨?_, ?_, ?_⟩
  · intro h
    simp [rolerRunStep, h]
  · intro h
    by_cases h1 : (minCount (countAddresses shardToMasterAddress)
        (masterCounts shardToMasterAddress)).2 < masterCounts shardToMasterAddress localAddress
    · simp [rolerRunStep, h1]
    · simp [rolerRunStep, h1, hopen, h]
  · intro shard address h
    simp only [rolerRunStep, hopen] at h
    split_ifs at h with h1 h2
    rcases hr : randomShard
        (maxCount (countAddresses shardToMasterAddress) (masterCounts shardToMasterAddress)).1
        shardToMasterAddress with _ | s
    · rw [hr] at h
      exact absurd h (by simp)
    · rw [hr] at h
      simp only [RolerDecision.steal.injEq] at h
      exact ⟨by omega, by omega, h.2.symm⟩

/-- C8 witness: concrete no-open-shard iteration where a steal happens. -/
theorem rolerRunStep_steal_guard_witness :
    (masterCounts [(0, "b"), (1, "b")] "a" : Int) + 1 ≤
      ((maxCount (countAddresses [(0, "b"), (1, "b")]) (masterCounts [(0, "b"), (1, "b")])).2 : Int) - 1 ∧
    masterCounts [(0, "b"), (1, "b")] "a" ≤
      (minCount (countAddresses [(0, "b"), (1, "b")]) (masterCounts [(0, "b"), (1, "b")])).2 ∧
    "b" = (maxCount (countAddresses [(0, "b"), (1, "b")]) (masterCounts [(0, "b"), (1, "b")])).1 :=
  (rolerRunStep_steal_guard "a" 2 [(0, "b"), (1, "b")] (by decide)).2.2 0 "b" (by decide)

/-! ## Assigner callback properties -/

/-- C9: on an empty snapshot of server states the AssignRoles callback
returns immediately: it deletes nothing, writes no ServerRole and no
Addresses entry, and leaves the assigner's remembered state untouched (in
particular the per-server budget divisions, which come after this guard,
are never reached). -/
theorem assignRoles_empty_snapshot_no_op :
    ∀ (numShards numReplicas : Nat) (st : AssignerState)
      (storeRoles : List (String × Int)),
      assignRolesCallback numShards numReplicas st [] storeRoles =
        { deletes := [], roleWrites := [], addresses := none, newState := st } :=
  fun _ _ _ _ => rfl

/-! ## Version -/

lemma version_foldl_spec (l : List ServerState) (acc : Int) :
    (l.foldl (fun m s => if s.version < m then s.version else m) acc = acc ∨
      l.foldl (fun m s => if s.version < m then s.version else m) acc ∈
        l.map (fun s => s.version)) ∧
    l.foldl (fun m s => if s.version < m then s.version else m) acc ≤ acc ∧
    (∀ s ∈ l, l.foldl (fun m s => if s.version < m then s.version else m) acc ≤ s.version) := by
  induction l generalizing acc with
  | nil => exact ⟨Or.inl rfl, le_refl _, by simp⟩
  | cons s rest ih =>
    obtain ⟨ih1, ih2, ih3⟩ := ih (if s.version < acc then s.version else acc)
    have hle : (if s.version < acc then s.version else acc) ≤ acc ∧
        (if s.version < acc then s.version else acc) ≤ s.version := by
      split <;> omega
    refine ⟨?_, ?_, ?_⟩
    · rcases ih1 with h | h
      · by_cases hc : s.version < acc
        · right
          simp only [List.foldl_cons, List.map_cons, List.mem_cons]
          left
          rw [h]
          simp [hc]
        · left
          simp only [List.foldl_cons]
          rw [h]
          simp [hc]
      · right
        simp only [List.foldl_cons, List.map_cons, List.mem_cons]
        exact Or.inr h
    · exact le_trans ih2 hle.1
    · intro t ht
      rcases List.mem_cons.1 ht with rfl | ht
      · exact le_trans ih2 hle.2
      · exact ih3 t ht

/-- C10: with no ServerState entries Version returns the math.MaxInt64
sentinel `2^63 - 1` (with a nil error in the source — the modelled fragment
has no error path); with entries whose versions fit in int64 it returns the
minimum of their version fields. -/
theorem Version_sentinel_and_min (serverStates : List ServerState)
    (hne : serverStates ≠ [])
    (hbound : ∀ s ∈ serverStates, s.version ≤ maxInt64) :
    Version serverStates ∈ serverStates.map (fun s => s.version) ∧
    (∀ s ∈ serverStates, Version serverStates ≤ s.version) ∧
    Version [] = 2 ^ 63 - 1 := by
  obtain ⟨hmem, hacc, hmin⟩ := version_foldl_spec serverStates maxInt64
  refine ⟨?_, hmin, rfl⟩
  rcases hmem with h | h
  · obtain ⟨s, rest, rfl⟩ := List.exists_cons_of_ne_nil hne
    have h1 : Version (s :: rest) ≤ s.version := hmin s (List.mem_cons_self s rest)
    have h2 : s.version ≤ maxInt64 := hbound s (List.mem_cons_self s rest)
    have h3 : Version (s :: rest) = s.version := by
      have : Version (s :: rest) = maxInt64 := h
      omega
    rw [h3]
    simp
  · exact h

/-- C10 witness: a concrete two-entry state set. -/
theorem Version_sentinel_and_min_witness :
    Version [{ id := "a", address := "x", version := 3, shards := [] },
             { id := "b", address := "y", version := 7, shards := [] }] ≤
      ({ id := "b", address := "y", version := 7, shards := [] } : ServerState).version :=
  (Version_sentinel_and_min
    [{ id := "a", address := "x", version := 3, shards := [] },
     { id := "b", address := "y", version := 7, shards := [] }]
    (by decide) (by decide)).2.1
    { id := "b", address := "y", version := 7, shards := [] } (by decide)

/-! ## assignMaster / assignReplica admission -/

lemma assignMaster_eq_some {serverRoles : String → Option ServerRole}
    {masters : Nat → Option String} {id : String} {shard : Nat} {per rem : Nat}
    {out : MasterAssign}
    (h : assignMaster serverRoles masters id shard per rem = some out) :
    ∃ serverRole, serverRoles id = some serverRole ∧
      serverRole.masters.length ≤ per ∧
      (serverRole.masters.length = per → 0 < rem) ∧
      hasShard serverRole shard = false ∧
      out = { serverRoles := Function.update serverRoles id
                (some { serverRole with masters := serverRole.masters ++ [shard] }),
              masters := fun s => if s = shard then some id else masters s,
              masterRolesRemainder :=
                if serverRole.masters.length = per ∧ 0 < rem then rem - 1 else rem } := by
  rcases hsr : serverRoles id with _ | serverRole
  · simp only [assignMaster, hsr] at h
    exact absurd h (by simp)
  · simp only [assignMaster, hsr] at h
    split_ifs at h with h1 h2 h3 h4
    · have hhs : hasShard serverRole shard = false := by
        cases hh : hasShard serverRole shard
        · rfl
        · exact absurd hh h3
      refine ⟨serverRole, rfl, by omega, by omega, hhs, ?_⟩
      rw [if_pos h4]
      exact (Option.some.inj h).symm
    · have hhs : hasShard serverRole shard = false := by
        cases hh : hasShard serverRole shard
        · rfl
        · exact absurd hh h3
      refine ⟨serverRole, rfl, by omega, by omega, hhs, ?_⟩
      rw [if_neg h4]
      exact (Option.some.inj h).symm

lemma assignMaster_succeeds (serverRoles : String → Option ServerRole)
    (masters : Nat → Option String) (id : String) (shard : Nat) (per rem : Nat)
    (serverRole : ServerRole)
    (hsr : serverRoles id = some serverRole)
    (hhs : hasShard serverRole shard = false)
    (hadm : serverRole.masters.length < per ∨
      (serverRole.masters.length = per ∧ 0 < rem)) :
    ∃ out, assignMaster serverRoles masters id shard per rem = some out := by
  simp only [assignMaster, hsr]
  split_ifs with h1 h2 h3 h4
  · omega
  · omega
  · rw [hhs] at h3
    exact absurd h3 (by simp)
  · exact ⟨_, rfl⟩
  · exact ⟨_, rfl⟩

lemma assignReplica_eq_some {serverRoles : String → Option ServerRole}
    {masters : Nat → Option String} {replicas : Nat → List String}
    {id : String} {shard : Nat} {per rem : Nat} {out : ReplicaAssign}
    (h : assignReplica serverRoles masters replicas id shard per rem = some out) :
    ∃ serverRole, serverRoles id = some serverRole ∧
      serverRole.replicas.length ≤ per ∧
      (serverRole.replicas.length = per → 0 < rem) ∧
      hasShard serverRole shard = false ∧
      out = { serverRoles := Function.update serverRoles id
                (some { serverRole with replicas := serverRole.replicas ++ [shard] }),
              replicas := fun s => if s = shard then replicas shard ++ [id] else replicas s,
              replicaRolesRemainder :=
                if serverRole.replicas.length = per ∧ 0 < rem then rem - 1 else rem } := by
  rcases hsr : serverRoles id with _ | serverRole
  · simp only [assignReplica, hsr] at h
    exact absurd h (by simp)
  · simp only [assignReplica, hsr] at h
    split_ifs at h with h1 h2 h3 h4
    · have hhs : hasShard serverRole shard = false := by
        cases hh : hasShard serverRole shard
        · rfl
        · exact absurd hh h3
      refine ⟨serverRole, rfl, by omega, by omega, hhs, ?_⟩
      rw [if_pos h4]
      exact (Option.some.inj h).symm
    · have hhs : hasShard serverRole shard = false := by
        cases hh : hasShard serverRole shard
        · rfl
        · exact absurd hh h3
      refine ⟨serverRole, rfl, by omega, by omega, hhs, ?_⟩
      rw [if_neg h4]
      exact (Option.some.inj h).symm

lemma assignReplica_succeeds (serverRoles : String → Option ServerRole)
    (masters : Nat → Option String) (replicas : Nat → List String)
    (id : String) (shard : Nat) (per rem : Nat) (serverRole : ServerRole)
    (hsr : serverRoles id = some serverRole)
    (hhs : hasShard serverRole shard = false)
    (hadm : serverRole.replicas.length < per ∨
      (serverRole.replicas.length = per ∧ 0 < rem)) :
    ∃ out, assignReplica serverRoles masters replicas id shard per rem = some out := by
  simp only [assignReplica, hsr]
  split_ifs with h1 h2 h3 h4
  · omega
  · omega
  · rw [hhs] at h3
    exact absurd h3 (by simp)
  · exact ⟨_, rfl⟩
  · exact ⟨_, rfl⟩

/-- C3: assignMaster admits `id` for `shard` exactly when `id` is a known
server, does not already hold the shard as master or replica, and is within
the per-server budget or consumes a positive remainder (which is then
decremented); on success the role map records the shard under `id` and the
masters map points the shard at `id`.  A `none` result models the `false`
return, under which the functional reading leaves the maps unchanged.  The
analogous statement holds for assignReplica with the replica budget. -/
theorem assignMaster_assignReplica_admission :
    ∀ (serverRoles : String → Option ServerRole) (masters : Nat → Option String)
      (replicas : Nat → List String) (id : String) (shard : Nat) (per rem : Nat),
      ((∃ out, assignMaster serverRoles masters id shard per rem = some out) ↔
        (∃ serverRole, serverRoles id = some serverRole ∧
          hasShard serverRole shard = false ∧
          (serverRole.masters.length < per ∨
            (serverRole.masters.length = per ∧ 0 < rem)))) ∧
      (∀ out, assignMaster serverRoles masters id shard per rem = some out →
        ∃ serverRole, serverRoles id = some serverRole ∧
          out.serverRoles = Function.update serverRoles id
            (some { serverRole with masters := serverRole.masters ++ [shard] }) ∧
          out.masters = (fun s => if s = shard then some id else masters s) ∧
          out.masterRolesRemainder =
            (if serverRole.masters.length = per ∧ 0 < rem then rem - 1 else rem)) ∧
      ((∃ out, assignReplica serverRoles masters replicas id shard per rem = some out) ↔
        (∃ serverRole, serverRoles id = some serverRole ∧
          hasShard serverRole shard = false ∧
          (serverRole.replicas.length < per ∨
            (serverRole.replicas.length = per ∧ 0 < rem)))) ∧
      (∀ out, assignReplica serverRoles masters replicas id shard per rem = some out →
        ∃ serverRole, serverRoles id = some serverRole ∧
          out.serverRoles = Function.update serverRoles id
            (some { serverRole with replicas := serverRole.replicas ++ [shard] }) ∧
          out.replicas = (fun s => if s = shard then replicas shard ++ [id] else replicas s) ∧
          out.replicaRolesRemainder =
            (if serverRole.replicas.length = per ∧ 0 < rem then rem - 1 else rem)) := by
  intro serverRoles masters replicas id shard per rem
  refine ⟨⟨?_, ?_⟩, ?_, ⟨?_, ?_⟩, ?_⟩
  · rintro ⟨out, h⟩
    obtain ⟨serverRole, hsr, hle, hrem, hhs, _⟩ := assignMaster_eq_some h
    exact ⟨serverRole, hsr, hhs, by omega⟩
  · rintro ⟨serverRole, hsr, hhs, hadm⟩
    exact assignMaster_succeeds _ _ _ _ _ _ _ hsr hhs hadm
  · intro out h
    obtain ⟨serverRole, hsr, _, _, _, hout⟩ := assignMaster_eq_some h
    exact ⟨serverRole, hsr, by rw [hout], by rw [hout], by rw [hout]⟩
  · rintro ⟨out, h⟩
    obtain ⟨serverRole, hsr, hle, hrem, hhs, _⟩ := assignReplica_eq_some h
    exact ⟨serverRole, hsr, hhs, by omega⟩
  · rintro ⟨serverRole, hsr, hhs, hadm⟩
    exact assignReplica_succeeds _ _ _ _ _ _ _ _ hsr hhs hadm
  · intro out h
    obtain ⟨serverRole, hsr, _, _, _, hout⟩ := assignReplica_eq_some h
    exact ⟨serverRole, hsr, by rw [hout], by rw [hout], by rw [hout]⟩

/-! ## fillRoles callback properties -/

lemma mem_collectRemoves {roles : List (Int × ServerRole)}
    {old : List (Int × ServerRole)} {shard : Nat}
    (h : shard ∈ collectRemoves roles old) : containsShard roles shard = false := by
  induction old with
  | nil => simp [collectRemoves] at h
  | cons p rest ih =>
    obtain ⟨version, serverRole⟩ := p
    simp only [collectRemoves] at h
    split at h
    · exact ih h
    · rcases List.mem_append.1 h with h' | h'
      · have := List.of_mem_filter h'
        simpa using this
      · exact ih h'

lemma applyVersions_fst_sublist (roles : List (Int × ServerRole)) :
    ∀ (versions : List Int) (old : List (Int × ServerRole)),
      ((applyVersions roles versions old).1.map Prod.fst).Sublist versions := by
  intro versions
  induction versions with
  | nil => intro old; simp [applyVersions]
  | cons v rest ih =>
    intro old
    simp only [applyVersions]
    split
    · exact (ih old).cons v
    · split
      · exact (ih old).cons v
      · simpa using (ih (old ++ [(v, _)])).cons₂ v

lemma mem_insertVersion {v x : Int} {l : List Int} :
    x ∈ insertVersion v l ↔ x = v ∨ x ∈ l := by
  induction l with
  | nil => simp [insertVersion]
  | cons y ys ih =>
    simp only [insertVersion]
    split
    · simp [List.mem_cons]
    · simp only [List.mem_cons, ih]
      tauto

lemma sorted_insertVersion {v : Int} {l : List Int}
    (h : l.Sorted (· ≤ ·)) : (insertVersion v l).Sorted (· ≤ ·) := by
  induction l with
  | nil => simp [insertVersion]
  | cons x xs ih =>
    rw [List.sorted_cons] at h
    simp only [insertVersion]
    split
    · rename_i hvx
      rw [List.sorted_cons]
      refine ⟨?_, by rw [List.sorted_cons]; exact h⟩
      intro b hb
      rcases List.mem_cons.1 hb with rfl | hb
      · exact hvx
      · exact le_trans hvx (h.1 b hb)
    · rename_i hvx
      rw [List.sorted_cons]
      refine ⟨?_, ih h.2⟩
      intro b hb
      rcases mem_insertVersion.1 hb with rfl | hb
      · omega
      · exact h.1 b hb

lemma sortVersions_sorted (l : List Int) : (sortVersions l).Sorted (· ≤ ·) := by
  induction l with
  | nil => simp [sortVersions]
  | cons x xs ih => exact sorted_insertVersion ih

/-- C4: in every invocation of the fillRoles watch callback, RemoveShard is
called only for shards that no ServerRole version of the current snapshot
still contains, and the new versions are applied (their AddShard batch
issued) in ascending version order — structurally before the removal phase,
which is the second component of the result. -/
theorem fillRoles_removes_only_unclaimed :
    ∀ (oldRoles : List (Int × ServerRole)) (snapshotRoles : List ServerRole),
      (∀ shard ∈ (fillRolesCallback oldRoles snapshotRoles).2.1,
        containsShard (snapshotRoles.map (fun r => (r.version, r))) shard = false) ∧
      ((fillRolesCallback oldRoles snapshotRoles).1.map Prod.fst).Sorted (· ≤ ·) := by
  intro oldRoles snapshotRoles
  constructor
  · intro shard h
    exact mem_collectRemoves h
  · exact List.Pairwise.sublist (applyVersions_fst_sublist _ _ _)
      (sortVersions_sorted _)

/-! ## Counting lemmas for the balance invariant -/

lemma csum_congr {f g : String → Nat} :
    ∀ {l : List String}, (∀ id ∈ l, f id = g id) → csum f l = csum g l := by
  intro l
  induction l with
  | nil => intro _; rfl
  | cons x xs ih =>
    intro h
    simp only [csum]
    rw [h x (List.mem_cons_self x xs), ih (fun j hj => h j (List.mem_cons_of_mem x hj))]

lemma csum_add_one {f g : String → Nat} {id : String} :
    ∀ {l : List String}, l.Nodup → id ∈ l → g id = f id + 1 →
      (∀ j ∈ l, j ≠ id → g j = f j) → csum g l = csum f l + 1 := by
  intro l
  induction l with
  | nil => intro _ hm; simp at hm
  | cons x xs ih =>
    intro nd hm hg hother
    rcases List.mem_cons.1 hm with rfl | hm'
    · have hxs : ∀ j ∈ xs, g j = f j := by
        intro j hj
        have : j ≠ id := fun hji => (List.nodup_cons.1 nd).1 (hji ▸ hj)
        exact hother j (List.mem_cons_of_mem id hj) this
      simp only [csum]
      rw [hg, csum_congr (fun j hj => (hxs j hj).symm)]
      omega
    · have hx : g x = f x := by
        have : x ≠ id := fun hxi => (List.nodup_cons.1 nd).1 (hxi ▸ hm')
        exact hother x (List.mem_cons_self x xs) this
      simp only [csum]
      rw [hx, ih (List.nodup_cons.1 nd).2 hm' hg
        (fun j hj hji => hother j (List.mem_cons_of_mem x hj) hji)]
      omega

lemma overCount_congr {f g : String → Nat} {per : Nat} :
    ∀ {l : List String}, (∀ id ∈ l, (per < f id ↔ per < g id)) →
      overCount g per l = overCount f per l := by
  intro l
  induction l with
  | nil => intro _; rfl
  | cons x xs ih =>
    intro h
    simp only [overCount]
    rw [ih (fun j hj => h j (List.mem_cons_of_mem x hj))]
    have := h x (List.mem_cons_self x xs)
    by_cases hx : per < f x
    · rw [if_pos hx, if_pos (this.1 hx)]
    · rw [if_neg hx, if_neg (fun hgx => hx (this.2 hgx))]

lemma overCount_add_one {f g : String → Nat} {per : Nat} {id : String} :
    ∀ {l : List String}, l.Nodup → id ∈ l → ¬per < f id → per < g id →
      (∀ j ∈ l, j ≠ id → g j = f j) → overCount g per l = overCount f per l + 1 := by
  intro l
  induction l with
  | nil => intro _ hm; simp at hm
  | cons x xs ih =>
    intro nd hm hno hyes hother
    rcases List.mem_cons.1 hm with rfl | hm'
    · have hxs : ∀ j ∈ xs, g j = f j := by
        intro j hj
        have : j ≠ id := fun hji => (List.nodup_cons.1 nd).1 (hji ▸ hj)
        exact hother j (List.mem_cons_of_mem id hj) this
      simp only [overCount]
      rw [if_pos hyes, if_neg hno,
        overCount_congr (fun j hj => by rw [hxs j hj])]
      omega
    · have hx : g x = f x := by
        have : x ≠ id := fun hxi => (List.nodup_cons.1 nd).1 (hxi ▸ hm')
        exact hother x (List.mem_cons_self x xs) this
      simp only [overCount]
      rw [hx, ih (List.nodup_cons.1 nd).2 hm' hno hyes
        (fun j hj hji => hother j (List.mem_cons_of_mem x hj) hji)]
      omega

lemma csum_le_budget {f : String → Nat} {per : Nat} :
    ∀ (l : List String), (∀ id ∈ l, f id ≤ per + 1) →
      csum f l ≤ l.length * per + overCount f per l := by
  intro l
  induction l with
  | nil => intro _; simp [csum, overCount]
  | cons x xs ih =>
    intro h
    have hx := h x (List.mem_cons_self x xs)
    have hxs := ih (fun j hj => h j (List.mem_cons_of_mem x hj))
    simp only [csum, overCount, List.length_cons]
    by_cases hover : per < f x
    · rw [if_pos hover]
      have : (xs.length + 1) * per = xs.length * per + per := by ring
      omega
    · rw [if_neg hover]
      have : (xs.length + 1) * per = xs.length * per + per := by ring
      omega

lemma csum_lt_budget {f : String → Nat} {per : Nat} {j : String} :
    ∀ (l : List String), j ∈ l → f j < per → (∀ id ∈ l, f id ≤ per + 1) →
      csum f l + 1 ≤ l.length * per + overCount f per l := by
  intro l
  induction l with
  | nil => intro hm; simp at hm
  | cons x xs ih =>
    intro hm hj h
    simp only [csum, overCount, List.length_cons]
    have hlin : (xs.length + 1) * per = xs.length * per + per := by ring
    rcases List.mem_cons.1 hm with rfl | hm'
    · have hxs := csum_le_budget xs (fun i hi => h i (List.mem_cons_of_mem j hi))
      have : ¬per < f j := by omega
      rw [if_neg this]
      omega
    · have hx := h x (List.mem_cons_self x xs)
      have hxs := ih hm' hj (fun i hi => h i (List.mem_cons_of_mem x hi))
      by_cases hover : per < f x
      · rw [if_pos hover]; omega
      · rw [if_neg hover]; omega

lemma per_le_of_inv {l : List String} {f : String → Nat} {per remInit : Nat}
    (h1 : ∀ id ∈ l, f id ≤ per + 1)
    (h2 : overCount f per l ≤ remInit)
    (h3 : csum f l = l.length * per + remInit) :
    ∀ id ∈ l, per ≤ f id := by
  intro j hj
  by_contra hlt
  have := csum_lt_budget l hj (by omega) h1
  omega

lemma placeInv_step {l : List String} {per remInit : Nat} {f g : String → Nat}
    {rem rem' a : Nat} {id : String} (nd : l.Nodup) (hm : id ∈ l)
    (inv : PlaceInv l per remInit f rem a)
    (hle : f id ≤ per) (hrem : f id = per → 0 < rem)
    (hg : g id = f id + 1) (hother : ∀ j ∈ l, j ≠ id → g j = f j)
    (hrem' : rem' = if f id = per ∧ 0 < rem then rem - 1 else rem) :
    PlaceInv l per remInit g rem' (a + 1) := by
  refine ⟨?_, ?_, ?_⟩
  · intro j hj
    by_cases hji : j = id
    · subst hji; rw [hg]; omega
    · rw [hother j hj hji]; exact inv.bound j hj
  · by_cases hcase : f id = per
    · have h0 : 0 < rem := hrem hcase
      have hov : overCount g per l = overCount f per l + 1 :=
        overCount_add_one nd hm (by omega) (by omega) hother
      have hr : rem' = rem - 1 := by rw [hrem', if_pos ⟨hcase, h0⟩]
      have := inv.over
      omega
    · have hov : overCount g per l = overCount f per l := by
        apply overCount_congr
        intro j hj
        by_cases hji : j = id
        · subst hji
          rw [hg]
          have : f j < per := by omega
          constructor <;> intro <;> omega
        · rw [hother j hj hji]
      have hr : rem' = rem := by
        rw [hrem', if_neg]
        intro hc
        exact hcase hc.1
      have := inv.over
      omega
  · rw [csum_add_one nd hm hg hother, inv.total]

/-! ## Master placement preserves the invariants -/

lemma hasShard_false_iff {serverRole : ServerRole} {shard : Nat} :
    hasShard serverRole shard = false ↔
      shard ∉ serverRole.masters ∧ shard ∉ serverRole.replicas := by
  simp [hasShard]

lemma assignMaster_inv_step {servers : List String} {per remInit : Nat}
    {serverRoles : String → Option ServerRole} {masters : Nat → Option String}
    {id : String} {shard : Nat} {rem a : Nat} {out : MasterAssign}
    (nd : servers.Nodup)
    (h : assignMaster serverRoles masters id shard per rem = some out)
    (dom : RolesDom servers serverRoles)
    (disj : RolesDisj serverRoles)
    (inv : PlaceInv servers per remInit (fun j => (mmap serverRoles j).length) rem a) :
    RolesDom servers out.serverRoles ∧ RolesDisj out.serverRoles ∧
    PlaceInv servers per remInit (fun j => (mmap out.serverRoles j).length)
      out.masterRolesRemainder (a + 1) ∧
    (∀ j, rmap out.serverRoles j = rmap serverRoles j) := by
  obtain ⟨serverRole, hsr, hle, hrem, hhs, hout⟩ := assignMaster_eq_some h
  obtain ⟨hnm, hnr⟩ := hasShard_false_iff.1 hhs
  have hmem : id ∈ servers := (dom id).1 (by rw [hsr]; rfl)
  have hml : mmap serverRoles id = serverRole.masters := by rw [mmap, hsr]
  have hupd_id : out.serverRoles id =
      some { serverRole with masters := serverRole.masters ++ [shard] } := by
    rw [hout]
    exact Function.update_same _ _ _
  have hupd_ne : ∀ j, j ≠ id → out.serverRoles j = serverRoles j := by
    intro j hj
    rw [hout]
    exact Function.update_noteq hj _ _
  refine ⟨?_, ?_, ?_, ?_⟩
  · intro j
    by_cases hji : j = id
    · subst hji
      rw [hupd_id]
      simp [hmem]
    · rw [hupd_ne j hji]
      exact dom j
  · intro j sr hjsr s hs
    by_cases hji : j = id
    · subst hji
      rw [hupd_id] at hjsr
      obtain rfl := Option.some.inj hjsr
      rcases List.mem_append.1 hs.1 with hm' | hm'
      · exact disj _ serverRole hsr s ⟨hm', hs.2⟩
      · have : s = shard := by simpa using hm'
        subst this
        exact hnr hs.2
    · rw [hupd_ne j hji] at hjsr
      exact disj j sr hjsr s hs
  · refine placeInv_step nd hmem inv ?_ ?_ ?_ ?_ ?_
    · rw [hml]; exact hle
    · rw [hml]; exact hrem
    · rw [mmap, hupd_id, hml]
      simp
    · intro j _ hji
      rw [mmap, hupd_ne j hji, mmap]
    · rw [hout, hml]
  · intro j
    by_cases hji : j = id
    · subst hji
      rw [rmap, hupd_id, rmap, hsr]
    · rw [rmap, hupd_ne j hji, rmap]

lemma tryAssignMaster_eq_some {masters : Nat → Option String} {shard per : Nat} :
    ∀ {cands : List String} {serverRoles : String → Option ServerRole}
      {rem : Nat} {out : MasterAssign},
      tryAssignMaster masters shard per serverRoles rem cands = some out →
      ∃ id, assignMaster serverRoles masters id shard per rem = some out := by
  intro cands
  induction cands with
  | nil =>
    intro serverRoles rem out h
    simp [tryAssignMaster] at h
  | cons id rest ih =>
    intro serverRoles rem out h
    simp only [tryAssignMaster] at h
    cases hna : assignMaster serverRoles masters id shard per rem with
    | some st =>
      rw [hna] at h
      exact ⟨id, hna.trans h⟩
    | none =>
      rw [hna] at h
      exact ih h

lemma assignMasters_inv {servers : List String} {per remInit : Nat}
    {oldM : Nat → Option String} {oldR locs : Nat → List String}
    (nd : servers.Nodup) :
    ∀ {shardList : List Nat} {st st' : MasterAssign} {a : Nat},
      assignMasters oldM oldR locs servers per shardList st = some st' →
      RolesDom servers st.serverRoles → RolesDisj st.serverRoles →
      PlaceInv servers per remInit (fun j => (mmap st.serverRoles j).length)
        st.masterRolesRemainder a →
      RolesDom servers st'.serverRoles ∧ RolesDisj st'.serverRoles ∧
      PlaceInv servers per remInit (fun j => (mmap st'.serverRoles j).length)
        st'.masterRolesRemainder (a + shardList.length) ∧
      (∀ j, rmap st'.serverRoles j = rmap st.serverRoles j) := by
  intro shardList
  induction shardList with
  | nil =>
    intro st st' a h dom disj inv
    simp only [assignMasters] at h
    obtain rfl := Option.some.inj h
    exact ⟨dom, disj, by simpa using inv, fun _ => rfl⟩
  | cons shard rest ih =>
    intro st st' a h dom disj inv
    simp only [assignMasters] at h
    cases htry : tryAssignMaster st.masters shard per st.serverRoles
        st.masterRolesRemainder (candidateOrder oldM oldR locs servers shard) with
    | none =>
      rw [htry] at h
      exact absurd h (by simp)
    | some st1 =>
      rw [htry] at h
      obtain ⟨id, hassign⟩ := tryAssignMaster_eq_some htry
      obtain ⟨dom1, disj1, inv1, rpres1⟩ := assignMaster_inv_step nd hassign dom disj inv
      obtain ⟨dom2, disj2, inv2, rpres2⟩ := ih h dom1 disj1 inv1
      refine ⟨dom2, disj2, ?_, fun j => (rpres2 j).trans (rpres1 j)⟩
      have harith : a + (shard :: rest).length = a + 1 + rest.length := by
        simp [List.length_cons]
        omega
      rw [harith]
      exact inv2

/-! ## Replica placement preserves the invariants -/

lemma assignReplica_inv_step {servers : List String} {per remInit : Nat}
    {serverRoles : String → Option ServerRole} {masters : Nat → Option String}
    {replicas : Nat → List String}
    {id : String} {shard : Nat} {rem a : Nat} {out : ReplicaAssign}
    (nd : servers.Nodup)
    (h : assignReplica serverRoles masters replicas id shard per rem = some out)
    (dom : RolesDom servers serverRoles)
    (disj : RolesDisj serverRoles)
    (inv : PlaceInv servers per remInit (fun j => (rmap serverRoles j).length) rem a) :
    RolesDom servers out.serverRoles ∧ RolesDisj out.serverRoles ∧
    PlaceInv servers per remInit (fun j => (rmap out.serverRoles j).length)
      out.replicaRolesRemainder (a + 1) ∧
    (∀ j, mmap out.serverRoles j = mmap serverRoles j) := by
  obtain ⟨serverRole, hsr, hle, hrem, hhs, hout⟩ := assignReplica_eq_some h
  obtain ⟨hnm, hnr⟩ := hasShard_false_iff.1 hhs
  have hmem : id ∈ servers := (dom id).1 (by rw [hsr]; rfl)
  have hrl : rmap serverRoles id = serverRole.replicas := by rw [rmap, hsr]
  have hupd_id : out.serverRoles id =
      some { serverRole with replicas := serverRole.replicas ++ [shard] } := by
    rw [hout]
    exact Function.update_same _ _ _
  have hupd_ne : ∀ j, j ≠ id → out.serverRoles j = serverRoles j := by
    intro j hj
    rw [hout]
    exact Function.update_noteq hj _ _
  refine ⟨?_, ?_, ?_, ?_⟩
  · intro j
    by_cases hji : j = id
    · subst hji
      rw [hupd_id]
      simp [hmem]
    · rw [hupd_ne j hji]
      exact dom j
  · intro j sr hjsr s hs
    by_cases hji : j = id
    · subst hji
      rw [hupd_id] at hjsr
      obtain rfl := Option.some.inj hjsr
      rcases List.mem_append.1 hs.2 with hr' | hr'
      · exact disj _ serverRole hsr s ⟨hs.1, hr'⟩
      · have : s = shard := by simpa using hr'
        subst this
        exact hnm hs.1
    · rw [hupd_ne j hji] at hjsr
      exact disj j sr hjsr s hs
  · refine placeInv_step nd hmem inv ?_ ?_ ?_ ?_ ?_
    · rw [hrl]; exact hle
    · rw [hrl]; exact hrem
    · rw [rmap, hupd_id, hrl]
      simp
    · intro j _ hji
      rw [rmap, hupd_ne j hji, rmap]
    · rw [hout, hrl]
  · intro j
    by_cases hji : j = id
    · subst hji
      rw [mmap, hupd_id, mmap, hsr]
    · rw [mmap, hupd_ne j hji, mmap]

lemma tryAssignReplica_eq_some {masters : Nat → Option String} {shard per : Nat} :
    ∀ {cands : List String} {serverRoles : String → Option ServerRole}
      {replicas : Nat → List String} {rem : Nat} {out : ReplicaAssign},
      tryAssignReplica masters shard per serverRoles replicas rem cands = some out →
      ∃ id, assignReplica serverRoles masters replicas id shard per rem = some out := by
  intro cands
  induction cands with
  | nil =>
    intro serverRoles replicas rem out h
    simp [tryAssignReplica] at h
  | cons id rest ih =>
    intro serverRoles replicas rem out h
    simp only [tryAssignReplica] at h
    cases hna : assignReplica serverRoles masters replicas id shard per rem with
    | some st =>
      rw [hna] at h
      exact ⟨id, hna.trans h⟩
    | none =>
      rw [hna] at h
      exact ih h

lemma trySwapReplica_eq_some {masters : Nat → Option String}
    {servers : List String} {shard per : Nat} :
    ∀ {iter : List String} {serverRoles : String → Option ServerRole}
      {replicas : Nat → List String}
      {out : (String → Option ServerRole) × (Nat → List String)},
      trySwapReplica masters servers shard per serverRoles replicas iter = some out →
      ∃ id, swapReplica serverRoles masters replicas servers id shard per = some out := by
  intro iter
  induction iter with
  | nil =>
    intro serverRoles replicas out h
    simp [trySwapReplica] at h
  | cons id rest ih =>
    intro serverRoles replicas out h
    simp only [trySwapReplica] at h
    cases hna : swapReplica serverRoles masters replicas servers id shard per with
    | some st =>
      rw [hna] at h
      exact ⟨id, hna.trans h⟩
    | none =>
      rw [hna] at h
      exact ih h

lemma swapSearch_eq_some {serverRoles : String → Option ServerRole}
    {serverRole : ServerRole} {id : String} {shard : Nat} :
    ∀ {l : List String} {out : String × ServerRole × Nat},
      swapSearch serverRoles serverRole id shard l = some out →
      out.1 ≠ id ∧ serverRoles out.1 = some out.2.1 ∧
      out.2.2 ∈ out.2.1.replicas ∧
      hasShard serverRole out.2.2 = false ∧
      hasShard out.2.1 shard = false := by
  intro l
  induction l with
  | nil =>
    intro out h
    simp [swapSearch] at h
  | cons swapID rest ih =>
    intro out h
    simp only [swapSearch] at h
    split at h
    · exact ih h
    · rename_i hne
      cases hsw : serverRoles swapID with
      | none =>
        simp only [hsw] at h
        exact ih h
      | some swapServerRole =>
        simp only [hsw] at h
        cases hf : swapServerRole.replicas.find? (fun swapShard =>
            !hasShard serverRole swapShard && !hasShard swapServerRole shard) with
        | none =>
          simp only [hf] at h
          exact ih h
        | some swapShard =>
          simp only [hf] at h
          obtain rfl := Option.some.inj h
          have hp := List.find?_some hf
          have hmem := List.mem_of_find?_eq_some hf
          simp only [Bool.and_eq_true, Bool.not_eq_true'] at hp
          exact ⟨hne, hsw, hmem, hp.1, hp.2⟩

lemma swapReplica_inv_step {servers : List String} {per remInit : Nat}
    {serverRoles : String → Option ServerRole} {masters : Nat → Option String}
    {replicas : Nat → List String} {id : String} {shard : Nat}
    {out : (String → Option ServerRole) × (Nat → List String)} {rem a : Nat}
    (nd : servers.Nodup)
    (h : swapReplica serverRoles masters replicas servers id shard per = some out)
    (dom : RolesDom servers serverRoles)
    (disj : RolesDisj serverRoles)
    (inv : PlaceInv servers per remInit (fun j => (rmap serverRoles j).length) rem a)
    (hper : per < maxUint64) :
    RolesDom servers out.1 ∧ RolesDisj out.1 ∧
    PlaceInv servers per remInit (fun j => (rmap out.1 j).length) rem (a + 1) ∧
    (∀ j, mmap out.1 j = mmap serverRoles j) := by
  rcases hsr : serverRoles id with _ | serverRole
  · simp only [swapReplica, hsr] at h
    exact absurd h (by simp)
  · simp only [swapReplica, hsr] at h
    split_ifs at h with hguard
    cases hss : swapSearch serverRoles serverRole id shard servers with
    | none =>
      simp only [hss] at h
      exact absurd h (by simp)
    | some trip =>
      obtain ⟨swapID, swapServerRole, swapShard⟩ := trip
      have hspec := swapSearch_eq_some hss
      dsimp only at hspec
      obtain ⟨hne, hsw, hmemRep, hhs1, hhs2⟩ := hspec
      simp only [hss] at h
      have hmemSwap : swapID ∈ servers := (dom swapID).1 (by rw [hsw]; rfl)
      have hmemId : id ∈ servers := (dom id).1 (by rw [hsr]; rfl)
      have hbswap : swapServerRole.replicas.length ≤ per + 1 := by
        have hb := inv.bound swapID hmemSwap
        simpa [rmap, hsw] using hb
      have hlenErase : (swapServerRole.replicas.erase swapShard).length =
          swapServerRole.replicas.length - 1 := List.length_erase_of_mem hmemRep
      have hlenPos : 0 < swapServerRole.replicas.length :=
        List.length_pos.2 (List.ne_nil_of_mem hmemRep)
      have hguard' : serverRole.replicas.length < per := by omega
      have hhs2' : hasShard
          { swapServerRole with replicas := swapServerRole.replicas.erase swapShard }
          shard = false := by
        obtain ⟨h1, h2⟩ := hasShard_false_iff.1 hhs2
        exact hasShard_false_iff.2 ⟨h1, fun hc => h2 (List.mem_of_mem_erase hc)⟩
      have hlook1 : Function.update serverRoles swapID
          (some { swapServerRole with replicas := swapServerRole.replicas.erase swapShard })
          swapID =
          some { swapServerRole with replicas := swapServerRole.replicas.erase swapShard } :=
        Function.update_same _ _ _
      obtain ⟨out2, hstep2⟩ := assignReplica_succeeds
        (Function.update serverRoles swapID
          (some { swapServerRole with replicas := swapServerRole.replicas.erase swapShard }))
        masters (removeReplica replicas swapShard swapID) swapID shard maxUint64 0
        { swapServerRole with replicas := swapServerRole.replicas.erase swapShard }
        hlook1 hhs2'
        (Or.inl (by show (swapServerRole.replicas.erase swapShard).length < maxUint64; omega))
      simp only [hstep2] at h
      obtain ⟨sr2, hsr2, _, _, _, hout2⟩ := assignReplica_eq_some hstep2
      rw [hlook1] at hsr2
      obtain rfl := Option.some.inj hsr2
      have hlook2 : out2.serverRoles id = some serverRole := by
        rw [hout2]
        dsimp only
        rw [Function.update_noteq (Ne.symm hne), Function.update_noteq (Ne.symm hne)]
        exact hsr
      obtain ⟨out3, hstep3⟩ := assignReplica_succeeds out2.serverRoles masters out2.replicas
        id swapShard per 0 serverRole hlook2 hhs1 (Or.inl hguard')
      simp only [hstep3] at h
      obtain rfl := Option.some.inj h
      obtain ⟨sr3, hsr3, _, _, _, hout3⟩ := assignReplica_eq_some hstep3
      rw [hlook2] at hsr3
      obtain rfl := Option.some.inj hsr3
      have hfin_id : out3.serverRoles id =
          some { serverRole with replicas := serverRole.replicas ++ [swapShard] } := by
        rw [hout3]
        dsimp only
        rw [Function.update_same]
      have hfin_swap : out3.serverRoles swapID =
          some { swapServerRole with
            replicas := swapServerRole.replicas.erase swapShard ++ [shard] } := by
        rw [hout3]
        dsimp only
        rw [Function.update_noteq hne, hout2]
        dsimp only
        rw [Function.update_same]
      have hfin_ne : ∀ j, j ≠ id → j ≠ swapID → out3.serverRoles j = serverRoles j := by
        intro j hj1 hj2
        rw [hout3]
        dsimp only
        rw [Function.update_noteq hj1, hout2]
        dsimp only
        rw [Function.update_noteq hj2, Function.update_noteq hj2]
      have hc_id : (rmap out3.serverRoles id).length = (rmap serverRoles id).length + 1 := by
        rw [rmap, hfin_id, rmap, hsr]
        simp
      have hc_swap : (rmap out3.serverRoles swapID).length =
          (rmap serverRoles swapID).length := by
        rw [rmap, hfin_swap, rmap, hsw]
        simp only [List.length_append, List.length_cons, List.length_nil, hlenErase]
        omega
      refine ⟨?_, ?_, ?_, ?_⟩
      · dsimp only
        intro j
        by_cases hj1 : j = id
        · rw [hj1, hfin_id]
          simp [hmemId]
        · by_cases hj2 : j = swapID
          · rw [hj2, hfin_swap]
            simp [hmemSwap]
          · rw [hfin_ne j hj1 hj2]
            exact dom j
      · dsimp only
        intro j sr hjsr s hs
        by_cases hj1 : j = id
        · rw [hj1, hfin_id] at hjsr
          obtain rfl := Option.some.inj hjsr
          rcases List.mem_append.1 hs.2 with hr' | hr'
          · exact disj _ serverRole hsr s ⟨hs.1, hr'⟩
          · have hss' : s = swapShard := by simpa using hr'
            rw [hss'] at hs
            exact (hasShard_false_iff.1 hhs1).1 hs.1
        · by_cases hj2 : j = swapID
          · rw [hj2, hfin_swap] at hjsr
            obtain rfl := Option.some.inj hjsr
            rcases List.mem_append.1 hs.2 with hr' | hr'
            · exact disj _ swapServerRole hsw s ⟨hs.1, List.mem_of_mem_erase hr'⟩
            · have hss' : s = shard := by simpa using hr'
              rw [hss'] at hs
              exact (hasShard_false_iff.1 hhs2).1 hs.1
          · rw [hfin_ne j hj1 hj2] at hjsr
            exact disj j sr hjsr s hs
      · dsimp only
        refine placeInv_step nd hmemId inv ?_ ?_ hc_id ?_ ?_
        · simp only [rmap, hsr]
          omega
        · intro hcontra
          simp only [rmap, hsr] at hcontra
          omega
        · intro j _ hji
          by_cases hj2 : j = swapID
          · rw [hj2]
            exact hc_swap
          · rw [rmap, hfin_ne j hji hj2, rmap]
        · have hnc : ¬((rmap serverRoles id).length = per ∧ 0 < rem) := by
            simp only [rmap, hsr]
            omega
          rw [if_neg hnc]
      · dsimp only
        intro j
        by_cases hj1 : j = id
        · rw [hj1, mmap, hfin_id, mmap, hsr]
        · by_cases hj2 : j = swapID
          · rw [hj2, mmap, hfin_swap, mmap, hsw]
          · rw [mmap, hfin_ne j hj1 hj2, mmap]

lemma placeReplica_inv {servers : List String} {per remInit : Nat}
    {oldM : Nat → Option String} {oldR locs : Nat → List String}
    {masters : Nat → Option String} {shard : Nat} {st st' : ReplicaAssign} {a : Nat}
    (nd : servers.Nodup)
    (h : placeReplica oldM oldR locs servers masters per shard st = some st')
    (dom : RolesDom servers st.serverRoles) (disj : RolesDisj st.serverRoles)
    (inv : PlaceInv servers per remInit (fun j => (rmap st.serverRoles j).length)
      st.replicaRolesRemainder a)
    (hper : per < maxUint64) :
    RolesDom servers st'.serverRoles ∧ RolesDisj st'.serverRoles ∧
    PlaceInv servers per remInit (fun j => (rmap st'.serverRoles j).length)
      st'.replicaRolesRemainder (a + 1) ∧
    (∀ j, mmap st'.serverRoles j = mmap st.serverRoles j) := by
  simp only [placeReplica] at h
  cases htry : tryAssignReplica masters shard per st.serverRoles st.replicas
      st.replicaRolesRemainder (candidateOrder oldM oldR locs servers shard) with
  | some st1 =>
    rw [htry] at h
    obtain rfl := Option.some.inj h
    obtain ⟨id, hassign⟩ := tryAssignReplica_eq_some htry
    exact assignReplica_inv_step nd hassign dom disj inv
  | none =>
    rw [htry] at h
    cases hsw : trySwapReplica masters servers shard per st.serverRoles st.replicas
        servers with
    | none =>
      simp only [hsw] at h
      exact absurd h (by simp)
    | some pr =>
      simp only [hsw] at h
      obtain rfl := Option.some.inj h
      obtain ⟨id, hswap⟩ := trySwapReplica_eq_some hsw
      obtain ⟨dom1, disj1, inv1, mpres⟩ := swapReplica_inv_step nd hswap dom disj inv hper
      exact ⟨dom1, disj1, inv1, mpres⟩

lemma placeReplicas_inv {servers : List String} {per remInit : Nat}
    {oldM : Nat → Option String} {oldR locs : Nat → List String}
    {masters : Nat → Option String}
    (nd : servers.Nodup) (hper : per < maxUint64) :
    ∀ {shardList : List Nat} {st st' : ReplicaAssign} {a : Nat},
      placeReplicas oldM oldR locs servers masters per shardList st = some st' →
      RolesDom servers st.serverRoles → RolesDisj st.serverRoles →
      PlaceInv servers per remInit (fun j => (rmap st.serverRoles j).length)
        st.replicaRolesRemainder a →
      RolesDom servers st'.serverRoles ∧ RolesDisj st'.serverRoles ∧
      PlaceInv servers per remInit (fun j => (rmap st'.serverRoles j).length)
        st'.replicaRolesRemainder (a + shardList.length) ∧
      (∀ j, mmap st'.serverRoles j = mmap st.serverRoles j) := by
  intro shardList
  induction shardList with
  | nil =>
    intro st st' a h dom disj inv
    simp only [placeReplicas] at h
    obtain rfl := Option.some.inj h
    exact ⟨dom, disj, by simpa using inv, fun _ => rfl⟩
  | cons shard rest ih =>
    intro st st' a h dom disj inv
    simp only [placeReplicas] at h
    cases hplace : placeReplica oldM oldR locs servers masters per shard st with
    | none =>
      rw [hplace] at h
      exact absurd h (by simp)
    | some st1 =>
      rw [hplace] at h
      obtain ⟨dom1, disj1, inv1, mpres1⟩ := placeReplica_inv nd hplace dom disj inv hper
      obtain ⟨dom2, disj2, inv2, mpres2⟩ := ih h dom1 disj1 inv1
      refine ⟨dom2, disj2, ?_, fun j => (mpres2 j).trans (mpres1 j)⟩
      have harith : a + (shard :: rest).length = a + 1 + rest.length := by
        simp [List.length_cons]
        omega
      rw [harith]
      exact inv2

lemma placeReplicaRounds_inv {servers : List String} {per remInit : Nat}
    {oldM : Nat → Option String} {oldR locs : Nat → List String}
    {masters : Nat → Option String} {shardList : List Nat}
    (nd : servers.Nodup) (hper : per < maxUint64) :
    ∀ {rounds : Nat} {st st' : ReplicaAssign} {a : Nat},
      placeReplicaRounds oldM oldR locs servers masters per shardList rounds st = some st' →
      RolesDom servers st.serverRoles → RolesDisj st.serverRoles →
      PlaceInv servers per remInit (fun j => (rmap st.serverRoles j).length)
        st.replicaRolesRemainder a →
      RolesDom servers st'.serverRoles ∧ RolesDisj st'.serverRoles ∧
      PlaceInv servers per remInit (fun j => (rmap st'.serverRoles j).length)
        st'.replicaRolesRemainder (a + rounds * shardList.length) ∧
      (∀ j, mmap st'.serverRoles j = mmap st.serverRoles j) := by
  intro rounds
  induction rounds with
  | zero =>
    intro st st' a h dom disj inv
    simp only [placeReplicaRounds] at h
    obtain rfl := Option.some.inj h
    exact ⟨dom, disj, by simpa using inv, fun _ => rfl⟩
  | succ n ih =>
    intro st st' a h dom disj inv
    simp only [placeReplicaRounds] at h
    cases hpass : placeReplicas oldM oldR locs servers masters per shardList st with
    | none =>
      rw [hpass] at h
      exact absurd h (by simp)
    | some st1 =>
      rw [hpass] at h
      obtain ⟨dom1, disj1, inv1, mpres1⟩ := placeReplicas_inv nd hper hpass dom disj inv
      obtain ⟨dom2, disj2, inv2, mpres2⟩ := ih h dom1 disj1 inv1
      refine ⟨dom2, disj2, ?_, fun j => (mpres2 j).trans (mpres1 j)⟩
      have harith : a + (n + 1) * shardList.length =
          a + shardList.length + n * shardList.length := by ring
      rw [harith]
      exact inv2

lemma overCount_eq_zero {f : String → Nat} {per : Nat} :
    ∀ {l : List String}, (∀ id ∈ l, f id ≤ per) → overCount f per l = 0 := by
  intro l
  induction l with
  | nil => intro _; rfl
  | cons x xs ih =>
    intro h
    have hx := h x (List.mem_cons_self x xs)
    simp only [overCount]
    rw [if_neg (by omega), ih (fun j hj => h j (List.mem_cons_of_mem x hj))]

lemma csum_eq_zero {f : String → Nat} :
    ∀ {l : List String}, (∀ id ∈ l, f id = 0) → csum f l = 0 := by
  intro l
  induction l with
  | nil => intro _; rfl
  | cons x xs ih =>
    intro h
    simp only [csum]
    rw [h x (List.mem_cons_self x xs), ih (fun j hj => h j (List.mem_cons_of_mem x hj))]

lemma runAssign_balanced {numShards numReplicas : Nat} {servers : List String}
    {version : Int} {oldM : Nat → Option String} {oldR locs : Nat → List String}
    {roles : String → Option ServerRole} {masters : Nat → Option String}
    {replicas : Nat → List String}
    (nd : servers.Nodup) (hne : servers ≠ [])
    (hNR : numShards * numReplicas < maxUint64)
    (h : runAssign numShards numReplicas servers version oldM oldR locs =
      some (roles, masters, replicas)) :
    RolesDom servers roles ∧ RolesDisj roles ∧
    (∀ id ∈ servers, numShards / servers.length ≤ (mmap roles id).length ∧
      (mmap roles id).length ≤ numShards / servers.length + 1) ∧
    (∀ id ∈ servers, numShards * numReplicas / servers.length ≤ (rmap roles id).length ∧
      (rmap roles id).length ≤ numShards * numReplicas / servers.length + 1) := by
  simp only [runAssign] at h
  cases hm : assignMasters oldM oldR locs servers (numShards / servers.length)
      (List.range numShards)
      { serverRoles := fun id =>
          if id ∈ servers then
            some { id := id, version := version, masters := [], replicas := [] }
          else none,
        masters := fun _ => none,
        masterRolesRemainder := numShards % servers.length } with
  | none =>
    simp only [hm] at h
    exact absurd h (by simp)
  | some mst =>
    simp only [hm] at h
    cases hr : placeReplicaRounds oldM oldR locs servers mst.masters
        (numShards * numReplicas / servers.length) (List.range numShards) numReplicas
        { serverRoles := mst.serverRoles, replicas := fun _ => [],
          replicaRolesRemainder := numShards * numReplicas % servers.length } with
    | none =>
      simp only [hr] at h
      exact absurd h (by simp)
    | some rst =>
      simp only [hr] at h
      simp only [Option.some.injEq, Prod.mk.injEq] at h
      obtain ⟨h1, h2, h3⟩ := h
      subst h1
      subst h2
      subst h3
      have hmmap0 : ∀ j, (mmap (fun id =>
          if id ∈ servers then
            (some { id := id, version := version, masters := [], replicas := [] } :
              Option ServerRole)
          else none) j).length = 0 := by
        intro j
        by_cases hj : j ∈ servers <;> simp [mmap, hj]
      have hrmap0 : ∀ j, (rmap (fun id =>
          if id ∈ servers then
            (some { id := id, version := version, masters := [], replicas := [] } :
              Option ServerRole)
          else none) j).length = 0 := by
        intro j
        by_cases hj : j ∈ servers <;> simp [rmap, hj]
      have dom0 : RolesDom servers (fun id =>
          if id ∈ servers then
            (some { id := id, version := version, masters := [], replicas := [] } :
              Option ServerRole)
          else none) := by
        intro j
        by_cases hj : j ∈ servers <;> simp [hj]
      have disj0 : RolesDisj (fun id =>
          if id ∈ servers then
            (some { id := id, version := version, masters := [], replicas := [] } :
              Option ServerRole)
          else none) := by
        intro j sr hsr s hs
        dsimp only at hsr
        by_cases hj : j ∈ servers
        · rw [if_pos hj] at hsr
          obtain rfl := Option.some.inj hsr
          simp at hs
        · rw [if_neg hj] at hsr
          exact absurd hsr (by simp)
      have inv0 : PlaceInv servers (numShards / servers.length)
          (numShards % servers.length)
          (fun j => (mmap (fun id =>
            if id ∈ servers then
              (some { id := id, version := version, masters := [], replicas := [] } :
                Option ServerRole)
            else none) j).length)
          (numShards % servers.length) 0 := by
        refine ⟨?_, ?_, ?_⟩
        · intro j _
          rw [hmmap0 j]
          exact Nat.zero_le _
        · rw [overCount_eq_zero (fun j _ => by rw [hmmap0 j]; exact Nat.zero_le _)]
          simp
        · exact csum_eq_zero (fun j _ => hmmap0 j)
      obtain ⟨dom1, disj1, inv1, rpres1⟩ := assignMasters_inv nd hm dom0 disj0 inv0
      have hperR : numShards * numReplicas / servers.length < maxUint64 :=
        lt_of_le_of_lt (Nat.div_le_self _ _) hNR
      have inv0r : PlaceInv servers (numShards * numReplicas / servers.length)
          (numShards * numReplicas % servers.length)
          (fun j => (rmap mst.serverRoles j).length)
          (numShards * numReplicas % servers.length) 0 := by
        have hzero : ∀ j, (rmap mst.serverRoles j).length = 0 := by
          intro j
          rw [rpres1 j]
          exact hrmap0 j
        refine ⟨?_, ?_, ?_⟩
        · intro j _
          rw [hzero j]
          exact Nat.zero_le _
        · rw [overCount_eq_zero (fun j _ => by rw [hzero j]; exact Nat.zero_le _)]
          simp
        · exact csum_eq_zero (fun j _ => hzero j)
      obtain ⟨dom2, disj2, inv2, mpres2⟩ := placeReplicaRounds_inv nd hperR hr dom1 disj1 inv0r
      have hlenR : (List.range numShards).length = numShards := List.length_range _
      have hkpos : 0 < servers.length := List.length_pos.2 hne
      have hmtotal : csum (fun j => (mmap mst.serverRoles j).length) servers =
          servers.length * (numShards / servers.length) + numShards % servers.length := by
        have := inv1.total
        rw [this]
        rw [hlenR]
        have := Nat.div_add_mod numShards servers.length
        omega
      have hmlow : ∀ id ∈ servers,
          numShards / servers.length ≤ (mmap mst.serverRoles id).length :=
        per_le_of_inv inv1.bound (by have := inv1.over; omega) hmtotal
      have hrtotal : csum (fun j => (rmap rst.serverRoles j).length) servers =
          servers.length * (numShards * numReplicas / servers.length) +
            numShards * numReplicas % servers.length := by
        have := inv2.total
        rw [this]
        rw [hlenR]
        have := Nat.div_add_mod (numShards * numReplicas) servers.length
        have hcomm : numReplicas * numShards = numShards * numReplicas := Nat.mul_comm _ _
        omega
      have hrlow : ∀ id ∈ servers,
          numShards * numReplicas / servers.length ≤ (rmap rst.serverRoles id).length :=
        per_le_of_inv inv2.bound (by have := inv2.over; omega) hrtotal
      refine ⟨dom2, disj2, ?_, ?_⟩
      · intro id hid
        have hpres := mpres2 id
        constructor
        · rw [hpres]
          exact hmlow id hid
        · rw [hpres]
          exact inv1.bound id hid
      · intro id hid
        exact ⟨hrlow id hid, inv2.bound id hid⟩

lemma assignRolesCallback_published {numShards numReplicas : Nat}
    {st : AssignerState} {newStates : List ServerState}
    {storeRoles : List (String × Int)}
    (hpub : (assignRolesCallback numShards numReplicas st newStates
      storeRoles).addresses.isSome = true) :
    ∃ roles masters replicas,
      runAssign numShards numReplicas ((newStates.map (fun s => s.id)).dedup)
        st.version st.oldMasters st.oldReplicas
        (fun shard => (newStates.filter
          (fun s => decide (shard ∈ s.shards))).map (fun s => s.id)) =
        some (roles, masters, replicas) ∧
      (assignRolesCallback numShards numReplicas st newStates storeRoles).roleWrites =
        ((newStates.map (fun s => s.id)).dedup).filterMap (fun id =>
          (roles id).map (fun serverRole => (id, serverRole))) ∧
      newStates ≠ [] := by
  by_cases hemp : newStates.isEmpty = true
  · rw [assignRolesCallback, if_pos hemp] at hpub
    simp at hpub
  · rw [assignRolesCallback, if_neg hemp] at hpub
    by_cases hsame : sameServers ((st.oldServerStates.map (fun s => s.id)).dedup)
        ((newStates.map (fun s => s.id)).dedup) = true
    · rw [if_pos hsame] at hpub
      simp at hpub
    · rw [if_neg hsame] at hpub
      cases hrun : runAssign numShards numReplicas
          ((newStates.map (fun s => s.id)).dedup) st.version st.oldMasters
          st.oldReplicas
          (fun shard => (newStates.filter
            (fun s => decide (shard ∈ s.shards))).map (fun s => s.id)) with
      | none =>
        rw [hrun] at hpub
        simp at hpub
      | some trip =>
        obtain ⟨roles, masters, replicas⟩ := trip
        refine ⟨roles, masters, replicas, rfl, ?_, ?_⟩
        · rw [assignRolesCallback, if_neg hemp, if_neg hsame, hrun]
        · intro hnil
          rw [hnil] at hemp
          exact hemp rfl

/-- C1: every assignment the AssignRoles callback publishes (every snapshot
for which it writes ServerRole entries and an Addresses entry) is balanced:
any two written roles differ by at most one in their number of master
shards, and by at most one in their number of replica shards — the
swapReplica fallback included, since it is part of the placement that
produced the published roles.  The arithmetic hypothesis reflects that the
shard and replica counts are uint64 values in the source. -/
theorem assignRoles_published_balanced (numShards numReplicas : Nat)
    (st : AssignerState) (newStates : List ServerState)
    (storeRoles : List (String × Int))
    (hNR : numShards * numReplicas < maxUint64)
    (hpub : (assignRolesCallback numShards numReplicas st newStates
      storeRoles).addresses.isSome = true) :
    ∀ p ∈ (assignRolesCallback numShards numReplicas st newStates
        storeRoles).roleWrites,
      ∀ q ∈ (assignRolesCallback numShards numReplicas st newStates
          storeRoles).roleWrites,
        p.2.masters.length ≤ q.2.masters.length + 1 ∧
        p.2.replicas.length ≤ q.2.replicas.length + 1 := by
  obtain ⟨roles, masters, replicas, hrun, hwrites, hne⟩ :=
    assignRolesCallback_published hpub
  have nd : ((newStates.map (fun s => s.id)).dedup).Nodup := List.nodup_dedup _
  have hsne : (newStates.map (fun s => s.id)).dedup ≠ [] := by
    intro hn
    rw [List.dedup_eq_nil] at hn
    exact hne (List.map_eq_nil_iff.1 hn)
  obtain ⟨dom, disj, hbm, hbr⟩ := runAssign_balanced nd hsne hNR hrun
  intro p hp q hq
  rw [hwrites] at hp hq
  obtain ⟨ip, hip, hfp⟩ := List.mem_filterMap.1 hp
  obtain ⟨iq, hiq, hfq⟩ := List.mem_filterMap.1 hq
  cases hrp : roles ip with
  | none =>
    rw [hrp] at hfp
    simp at hfp
  | some srp =>
    cases hrq : roles iq with
    | none =>
      rw [hrq] at hfq
      simp at hfq
    | some srq =>
      rw [hrp] at hfp
      rw [hrq] at hfq
      simp only [Option.map_some', Option.some.injEq] at hfp hfq
      have hmp : (mmap roles ip).length = p.2.masters.length := by
        rw [mmap, hrp, ← hfp]
      have hmq : (mmap roles iq).length = q.2.masters.length := by
        rw [mmap, hrq, ← hfq]
      have hrp' : (rmap roles ip).length = p.2.replicas.length := by
        rw [rmap, hrp, ← hfp]
      have hrq' : (rmap roles iq).length = q.2.replicas.length := by
        rw [rmap, hrq, ← hfq]
      obtain ⟨hm1, hm2⟩ := hbm ip hip
      obtain ⟨hm3, hm4⟩ := hbm iq hiq
      obtain ⟨hr1, hr2⟩ := hbr ip hip
      obtain ⟨hr3, hr4⟩ := hbr iq hiq
      constructor
      · omega
      · omega


/-! ## Domain and disjointness are preserved without any budget assumption -/

lemma assignMaster_preserves {servers : List String}
    {serverRoles : String → Option ServerRole} {masters : Nat → Option String}
    {id : String} {shard : Nat} {per rem : Nat} {out : MasterAssign}
    (h : assignMaster serverRoles masters id shard per rem = some out)
    (dom : RolesDom servers serverRoles) (disj : RolesDisj serverRoles) :
    RolesDom servers out.serverRoles ∧ RolesDisj out.serverRoles := by
  obtain ⟨serverRole, hsr, _, _, hhs, hout⟩ := assignMaster_eq_some h
  obtain ⟨hnm, hnr⟩ := hasShard_false_iff.1 hhs
  have hmem : id ∈ servers := (dom id).1 (by rw [hsr]; rfl)
  have hupd_id : out.serverRoles id =
      some { serverRole with masters := serverRole.masters ++ [shard] } := by
    rw [hout]
    exact Function.update_same _ _ _
  have hupd_ne : ∀ j, j ≠ id → out.serverRoles j = serverRoles j := by
    intro j hj
    rw [hout]
    exact Function.update_noteq hj _ _
  constructor
  · intro j
    by_cases hji : j = id
    · rw [hji, hupd_id]
      simp [hmem]
    · rw [hupd_ne j hji]
      exact dom j
  · intro j sr hjsr s hs
    by_cases hji : j = id
    · rw [hji, hupd_id] at hjsr
      obtain rfl := Option.some.inj hjsr
      rcases List.mem_append.1 hs.1 with hm' | hm'
      · exact disj _ serverRole hsr s ⟨hm', hs.2⟩
      · have : s = shard := by simpa using hm'
        rw [this] at hs
        exact hnr hs.2
    · rw [hupd_ne j hji] at hjsr
      exact disj j sr hjsr s hs

lemma assignReplica_preserves {servers : List String}
    {serverRoles : String → Option ServerRole} {masters : Nat → Option String}
    {replicas : Nat → List String}
    {id : String} {shard : Nat} {per rem : Nat} {out : ReplicaAssign}
    (h : assignReplica serverRoles masters replicas id shard per rem = some out)
    (dom : RolesDom servers serverRoles) (disj : RolesDisj serverRoles) :
    RolesDom servers out.serverRoles ∧ RolesDisj out.serverRoles := by
  obtain ⟨serverRole, hsr, _, _, hhs, hout⟩ := assignReplica_eq_some h
  obtain ⟨hnm, hnr⟩ := hasShard_false_iff.1 hhs
  have hmem : id ∈ servers := (dom id).1 (by rw [hsr]; rfl)
  have hupd_id : out.serverRoles id =
      some { serverRole with replicas := serverRole.replicas ++ [shard] } := by
    rw [hout]
    exact Function.update_same _ _ _
  have hupd_ne : ∀ j, j ≠ id → out.serverRoles j = serverRoles j := by
    intro j hj
    rw [hout]
    exact Function.update_noteq hj _ _
  constructor
  · intro j
    by_cases hji : j = id
    · rw [hji, hupd_id]
      simp [hmem]
    · rw [hupd_ne j hji]
      exact dom j
  · intro j sr hjsr s hs
    by_cases hji : j = id
    · rw [hji, hupd_id] at hjsr
      obtain rfl := Option.some.inj hjsr
      rcases List.mem_append.1 hs.2 with hr' | hr'
      · exact disj _ serverRole hsr s ⟨hs.1, hr'⟩
      · have : s = shard := by simpa using hr'
        rw [this] at hs
        exact hnm hs.1
    · rw [hupd_ne j hji] at hjsr
      exact disj j sr hjsr s hs

lemma swapReplica_safe {servers : List String}
    {serverRoles : String → Option ServerRole} {masters : Nat → Option String}
    {replicas : Nat → List String} {id : String} {shard : Nat} {per : Nat}
    {out : (String → Option ServerRole) × (Nat → List String)}
    (h : swapReplica serverRoles masters replicas servers id shard per = some out)
    (dom : RolesDom servers serverRoles) (disj : RolesDisj serverRoles) :
    RolesDom servers out.1 ∧ RolesDisj out.1 := by
  rcases hsr : serverRoles id with _ | serverRole
  · simp only [swapReplica, hsr] at h
    exact absurd h (by simp)
  · simp only [swapReplica, hsr] at h
    split_ifs at h with hguard
    cases hss : swapSearch serverRoles serverRole id shard servers with
    | none =>
      simp only [hss] at h
      exact absurd h (by simp)
    | some trip =>
      obtain ⟨swapID, swapServerRole, swapShard⟩ := trip
      have hspec := swapSearch_eq_some hss
      dsimp only at hspec
      obtain ⟨hne, hsw, hmemRep, hhs1, hhs2⟩ := hspec
      simp only [hss] at h
      have hmemSwap : swapID ∈ servers := (dom swapID).1 (by rw [hsw]; rfl)
      have dom1 : RolesDom servers (Function.update serverRoles swapID
          (some { swapServerRole with
            replicas := swapServerRole.replicas.erase swapShard })) := by
        intro j
        by_cases hj : j = swapID
        · rw [hj, Function.update_same]
          simp [hmemSwap]
        · rw [Function.update_noteq hj]
          exact dom j
      have disj1 : RolesDisj (Function.update serverRoles swapID
          (some { swapServerRole with
            replicas := swapServerRole.replicas.erase swapShard })) := by
        intro j sr hjsr s hs
        by_cases hj : j = swapID
        · rw [hj, Function.update_same] at hjsr
          obtain rfl := Option.some.inj hjsr
          exact disj _ swapServerRole hsw s ⟨hs.1, List.mem_of_mem_erase hs.2⟩
        · rw [Function.update_noteq hj] at hjsr
          exact disj j sr hjsr s hs
      cases hstep2 : assignReplica
          (Function.update serverRoles swapID
            (some { swapServerRole with
              replicas := swapServerRole.replicas.erase swapShard }))
          masters (removeReplica replicas swapShard swapID) swapID shard
          maxUint64 0 with
      | none =>
        simp only [hstep2] at h
        cases hstep3 : assignReplica
            (Function.update serverRoles swapID
              (some { swapServerRole with
                replicas := swapServerRole.replicas.erase swapShard }))
            masters (removeReplica replicas swapShard swapID) id swapShard per 0 with
        | none =>
          simp only [hstep3] at h
          obtain rfl := Option.some.inj h
          exact ⟨dom1, disj1⟩
        | some r3 =>
          simp only [hstep3] at h
          obtain rfl := Option.some.inj h
          exact assignReplica_preserves hstep3 dom1 disj1
      | some r2 =>
        simp only [hstep2] at h
        obtain ⟨dom2, disj2⟩ := assignReplica_preserves hstep2 dom1 disj1
        cases hstep3 : assignReplica r2.serverRoles masters r2.replicas id
            swapShard per 0 with
        | none =>
          simp only [hstep3] at h
          obtain rfl := Option.some.inj h
          exact ⟨dom2, disj2⟩
        | some r3 =>
          simp only [hstep3] at h
          obtain rfl := Option.some.inj h
          exact assignReplica_preserves hstep3 dom2 disj2

lemma assignMasters_safe {servers : List String} {per : Nat}
    {oldM : Nat → Option String} {oldR locs : Nat → List String} :
    ∀ {shardList : List Nat} {st st' : MasterAssign},
      assignMasters oldM oldR locs servers per shardList st = some st' →
      RolesDom servers st.serverRoles → RolesDisj st.serverRoles →
      RolesDom servers st'.serverRoles ∧ RolesDisj st'.serverRoles := by
  intro shardList
  induction shardList with
  | nil =>
    intro st st' h dom disj
    simp only [assignMasters] at h
    obtain rfl := Option.some.inj h
    exact ⟨dom, disj⟩
  | cons shard rest ih =>
    intro st st' h dom disj
    simp only [assignMasters] at h
    cases htry : tryAssignMaster st.masters shard per st.serverRoles
        st.masterRolesRemainder (candidateOrder oldM oldR locs servers shard) with
    | none =>
      rw [htry] at h
      exact absurd h (by simp)
    | some st1 =>
      rw [htry] at h
      obtain ⟨id, hassign⟩ := tryAssignMaster_eq_some htry
      obtain ⟨dom1, disj1⟩ := assignMaster_preserves hassign dom disj
      exact ih h dom1 disj1

lemma placeReplicas_safe {servers : List String} {per : Nat}
    {oldM : Nat → Option String} {oldR locs : Nat → List String}
    {masters : Nat → Option String} :
    ∀ {shardList : List Nat} {st st' : ReplicaAssign},
      placeReplicas oldM oldR locs servers masters per shardList st = some st' →
      RolesDom servers st.serverRoles → RolesDisj st.serverRoles →
      RolesDom servers st'.serverRoles ∧ RolesDisj st'.serverRoles := by
  intro shardList
  induction shardList with
  | nil =>
    intro st st' h dom disj
    simp only [placeReplicas] at h
    obtain rfl := Option.some.inj h
    exact ⟨dom, disj⟩
  | cons shard rest ih =>
    intro st st' h dom disj
    simp only [placeReplicas] at h
    cases hplace : placeReplica oldM oldR locs servers masters per shard st with
    | none =>
      rw [hplace] at h
      exact absurd h (by simp)
    | some st1 =>
      rw [hplace] at h
      have hstep : RolesDom servers st1.serverRoles ∧ RolesDisj st1.serverRoles := by
        simp only [placeReplica] at hplace
        cases htry : tryAssignReplica masters shard per st.serverRoles st.replicas
            st.replicaRolesRemainder (candidateOrder oldM oldR locs servers shard) with
        | some st2 =>
          rw [htry] at hplace
          obtain rfl := Option.some.inj hplace
          obtain ⟨id, hassign⟩ := tryAssignReplica_eq_some htry
          exact assignReplica_preserves hassign dom disj
        | none =>
          rw [htry] at hplace
          cases hsw : trySwapReplica masters servers shard per st.serverRoles
              st.replicas servers with
          | none =>
            simp only [hsw] at hplace
            exact absurd hplace (by simp)
          | some pr =>
            simp only [hsw] at hplace
            obtain rfl := Option.some.inj hplace
            obtain ⟨id, hswap⟩ := trySwapReplica_eq_some hsw
            exact swapReplica_safe hswap dom disj
      exact ih h hstep.1 hstep.2

lemma placeReplicaRounds_safe {servers : List String} {per : Nat}
    {oldM : Nat → Option String} {oldR locs : Nat → List String}
    {masters : Nat → Option String} {shardList : List Nat} :
    ∀ {rounds : Nat} {st st' : ReplicaAssign},
      placeReplicaRounds oldM oldR locs servers masters per shardList rounds st =
        some st' →
      RolesDom servers st.serverRoles → RolesDisj st.serverRoles →
      RolesDom servers st'.serverRoles ∧ RolesDisj st'.serverRoles := by
  intro rounds
  induction rounds with
  | zero =>
    intro st st' h dom disj
    simp only [placeReplicaRounds] at h
    obtain rfl := Option.some.inj h
    exact ⟨dom, disj⟩
  | succ n ih =>
    intro st st' h dom disj
    simp only [placeReplicaRounds] at h
    cases hpass : placeReplicas oldM oldR locs servers masters per shardList st with
    | none =>
      rw [hpass] at h
      exact absurd h (by simp)
    | some st1 =>
      rw [hpass] at h
      obtain ⟨dom1, disj1⟩ := placeReplicas_safe hpass dom disj
      exact ih h dom1 disj1

lemma runAssign_domdisj {numShards numReplicas : Nat} {servers : List String}
    {version : Int} {oldM : Nat → Option String} {oldR locs : Nat → List String}
    {roles : String → Option ServerRole} {masters : Nat → Option String}
    {replicas : Nat → List String}
    (h : runAssign numShards numReplicas servers version oldM oldR locs =
      some (roles, masters, replicas)) :
    RolesDom servers roles ∧ RolesDisj roles := by
  simp only [runAssign] at h
  cases hm : assignMasters oldM oldR locs servers (numShards / servers.length)
      (List.range numShards)
      { serverRoles := fun id =>
          if id ∈ servers then
            some { id := id, version := version, masters := [], replicas := [] }
          else none,
        masters := fun _ => none,
        masterRolesRemainder := numShards % servers.length } with
  | none =>
    simp only [hm] at h
    exact absurd h (by simp)
  | some mst =>
    simp only [hm] at h
    cases hr : placeReplicaRounds oldM oldR locs servers mst.masters
        (numShards * numReplicas / servers.length) (List.range numShards) numReplicas
        { serverRoles := mst.serverRoles, replicas := fun _ => [],
          replicaRolesRemainder := numShards * numReplicas % servers.length } with
    | none =>
      simp only [hr] at h
      exact absurd h (by simp)
    | some rst =>
      simp only [hr] at h
      simp only [Option.some.injEq, Prod.mk.injEq] at h
      obtain ⟨h1, h2, h3⟩ := h
      subst h1
      subst h2
      subst h3
      have dom0 : RolesDom servers (fun id =>
          if id ∈ servers then
            (some { id := id, version := version, masters := [], replicas := [] } :
              Option ServerRole)
          else none) := by
        intro j
        by_cases hj : j ∈ servers <;> simp [hj]
      have disj0 : RolesDisj (fun id =>
          if id ∈ servers then
            (some { id := id, version := version, masters := [], replicas := [] } :
              Option ServerRole)
          else none) := by
        intro j sr hsr s hs
        dsimp only at hsr
        by_cases hj : j ∈ servers
        · rw [if_pos hj] at hsr
          obtain rfl := Option.some.inj hsr
          simp at hs
        · rw [if_neg hj] at hsr
          exact absurd hsr (by simp)
      obtain ⟨dom1, disj1⟩ := assignMasters_safe hm dom0 disj0
      exact placeReplicaRounds_safe hr dom1 disj1

/-- C2: in every assignment the AssignRoles callback publishes, no server is
simultaneously master and replica of the same shard: every written
ServerRole has disjoint master and replica sets.  The property holds
because assignMaster, assignReplica, and each step of the swapReplica
exchange all check `hasShard` before inserting and only ever shrink the
other set. -/
theorem assignRoles_published_no_dual_role (numShards numReplicas : Nat)
    (st : AssignerState) (newStates : List ServerState)
    (storeRoles : List (String × Int))
    (hpub : (assignRolesCallback numShards numReplicas st newStates
      storeRoles).addresses.isSome = true) :
    ∀ p ∈ (assignRolesCallback numShards numReplicas st newStates
        storeRoles).roleWrites,
      ∀ shard : Nat, ¬(shard ∈ p.2.masters ∧ shard ∈ p.2.replicas) := by
  obtain ⟨roles, masters, replicas, hrun, hwrites, hne⟩ :=
    assignRolesCallback_published hpub
  obtain ⟨dom, disj⟩ := runAssign_domdisj hrun
  intro p hp shard
  rw [hwrites] at hp
  obtain ⟨ip, hip, hfp⟩ := List.mem_filterMap.1 hp
  cases hrp : roles ip with
  | none =>
    rw [hrp] at hfp
    simp at hfp
  | some srp =>
    rw [hrp] at hfp
    simp only [Option.map_some', Option.some.injEq] at hfp
    rw [← hfp]
    exact disj ip srp hrp shard

/-- C1 witness: a concrete published assignment (3 shards, 1 replica, two
servers) is balanced. -/
theorem assignRoles_published_balanced_witness :
    (("a", ({ id := "a", version := 0, masters := [0, 1], replicas := [2] } :
        ServerRole)) : String × ServerRole).2.masters.length ≤
      (("b", ({ id := "b", version := 0, masters := [2], replicas := [0, 1] } :
        ServerRole)) : String × ServerRole).2.masters.length + 1 ∧
    (("a", ({ id := "a", version := 0, masters := [0, 1], replicas := [2] } :
        ServerRole)) : String × ServerRole).2.replicas.length ≤
      (("b", ({ id := "b", version := 0, masters := [2], replicas := [0, 1] } :
        ServerRole)) : String × ServerRole).2.replicas.length + 1 :=
  assignRoles_published_balanced 3 1
    { version := 0, oldServerStates := [], oldMasters := fun _ => none,
      oldReplicas := fun _ => [], oldMinVersion := 0 }
    [{ id := "a", address := "addrA", version := -1, shards := [] },
     { id := "b", address := "addrB", version := -1, shards := [] }]
    [] (by decide) (by decide)
    ("a", { id := "a", version := 0, masters := [0, 1], replicas := [2] })
    (by decide)
    ("b", { id := "b", version := 0, masters := [2], replicas := [0, 1] })
    (by decide)

/-- C2 witness: in the same concrete published assignment, the server
holding shard 0 as replica does not master it. -/
theorem assignRoles_published_no_dual_role_witness :
    ¬((0 : Nat) ∈
        (("b", ({ id := "b", version := 0, masters := [2], replicas := [0, 1] } :
          ServerRole)) : String × ServerRole).2.masters ∧
      (0 : Nat) ∈
        (("b", ({ id := "b", version := 0, masters := [2], replicas := [0, 1] } :
          ServerRole)) : String × ServerRole).2.replicas) :=
  assignRoles_published_no_dual_role 3 1
    { version := 0, oldServerStates := [], oldMasters := fun _ => none,
      oldReplicas := fun _ => [], oldMinVersion := 0 }
    [{ id := "a", address := "addrA", version := -1, shards := [] },
     { id := "b", address := "addrB", version := -1, shards := [] }]
    [] (by decide)
    ("b", { id := "b", version := 0, masters := [2], replicas := [0, 1] })
    (by decide) 0
